import Mathlib

/-!
Verification of the PlanWeaver execution core
(`src/planweaver/services/router.py` together with the `Plan` /
`ExecutionStep` data model from `src/planweaver/models/plan.py`).

The embedding is shallow: the Python classes become Lean structures,
in-place mutation becomes explicit state passing (each operation returns
the updated step / plan), and the two external collaborators are
abstracted exactly as the spec prescribes:

* the LLM gateway's `complete` call is an oracle `LLMClient` indexed by
  a global call counter (the call may raise — `Except.error msg` — or
  return a Python dict, modelled as an association list); the rendered
  prompt string is irrelevant to every claim, because the oracle is
  indexed by the call number, so prompt construction is not modelled;
* `datetime.now(timezone.utc)` becomes a logical clock in a `World`
  record that also logs `time.sleep` durations, the number of LLM calls
  made, the ids of the steps executed and each execution's success flag.

Integer step ids keep Python's `int` type (`Int`).
-/

namespace PlanWeaver

/-- Python `None`-or-string values, enough for the `content` entries the
router reads from LLM response dicts and stores in `step.output`. -/
inductive PyVal where
  | none
  | str (s : String)
  deriving DecidableEq

/-- Python truthiness of a value: `None` and `""` are falsy. -/
def PyVal.truthy : PyVal → Bool
  | .none => false
  | .str s => !(s == "")

/-- A Python dict with string keys, as returned by `llm.complete`. -/
abbrev PyDict := List (String × PyVal)

/-- Python truthiness of a dict: truthy iff non-empty (`if response:`). -/
def PyDict.truthy (d : PyDict) : Bool := !d.isEmpty

/-- Python `d.get(k)`: the value at `k`, or `None` when absent. -/
def PyDict.get (d : PyDict) (k : String) : PyVal :=
  match d.find? (fun kv => kv.1 == k) with
  | Option.none => PyVal.none
  | Option.some kv => kv.2

/-- `StepStatus` from `models/plan.py`. -/
inductive StepStatus where
  | pending
  | in_progress
  | completed
  | failed
  | skipped
  deriving DecidableEq

/-- `PlanStatus` from `models/plan.py`. -/
inductive PlanStatus where
  | brainstorming
  | awaiting_approval
  | approved
  | executing
  | completed
  | failed
  deriving DecidableEq

/-- `ExecutionStep` from `models/plan.py`; timestamps use the logical
clock (`Option Nat`). -/
structure ExecutionStep where
  step_id : Int
  task : String := ""
  prompt_template_id : String := ""
  assigned_model : String := ""
  status : StepStatus := StepStatus.pending
  dependencies : List Int := []
  output : Option PyVal := Option.none
  error : Option String := Option.none
  started_at : Option Nat := Option.none
  completed_at : Option Nat := Option.none
  deriving DecidableEq

/-- The fields of `Plan` (from `models/plan.py`) that the execution core
reads or writes. -/
structure Plan where
  session_id : String := ""
  status : PlanStatus := PlanStatus.brainstorming
  user_intent : String := ""
  scenario_name : Option String := Option.none
  locked_constraints : List (String × PyVal) := []
  execution_graph : List ExecutionStep := []
  final_output : Option (List (String × PyVal)) := Option.none
  deriving DecidableEq

/-- The LLM gateway abstracted as an oracle: the `n`-th `complete` call
(counting from 0 across the whole run) either raises (`error`) or
returns a response dict. -/
abbrev LLMClient := Nat → Except String PyDict

/-- The ambient effects of a run: the logical clock (`datetime.now`
counter), the number of LLM calls made so far, the `time.sleep` log,
the ids of steps passed to `execute_step` by the plan loop, and the
success flag of each such execution. -/
structure World where
  clock : Nat := 0
  calls : Nat := 0
  sleeps : List ℚ := []
  log : List Int := []
  results : List Bool := []
  deriving DecidableEq

/-- `router.py` module constant `MAX_RETRIES = 3`. -/
def MAX_RETRIES : Nat := 3

/-- `router.py` module constant `RETRY_DELAY_BASE = 1.0` (the float
arithmetic `1.0 * 2**attempt` is exact, so `ℚ` is faithful). -/
def RETRY_DELAY_BASE : ℚ := 1

/-- `ExecutionRouter.get_executable_steps`. -/
def getExecutableSteps (plan : Plan) : List ExecutionStep :=
  let pending := plan.execution_graph.filter
    (fun s => decide (s.status = StepStatus.pending))
  let completedIds := (plan.execution_graph.filter
    (fun s => decide (s.status = StepStatus.completed))).map (fun s => s.step_id)
  pending.filter (fun s => s.dependencies.all (fun dep => completedIds.contains dep))

/-! ### `_validate_execution_graph`

The Python validator builds `steps_by_id`, rejects duplicate ids, then
rejects self-dependencies and dependencies on missing ids, and finally
runs a depth-first search with a `visiting` / `visited` pair of sets.
The recursion is modelled with explicit fuel; `Option.none` marks fuel
exhaustion, which `validateExecutionGraph` maps to a distinguished
error that is proved unreachable (fuel `length + 1` bounds the DFS
stack depth once the closedness check has passed). -/

/-- The error message of the duplicate-id check. -/
def dupErrMsg : String := "Execution graph contains duplicate step_id values"

/-- `f"Step {step.step_id} cannot depend on itself"`. -/
def selfErrMsg (sid : Int) : String :=
  "Step " ++ toString sid ++ " cannot depend on itself"

/-- `f"Step {step.step_id} depends on missing step {dep}"`. -/
def missingErrMsg (sid dep : Int) : String :=
  "Step " ++ toString sid ++ " depends on missing step " ++ toString dep

/-- `f"Execution graph contains a dependency cycle at step {step_id}"`. -/
def cycleErrMsg (sid : Int) : String :=
  "Execution graph contains a dependency cycle at step " ++ toString sid

/-- The inner `for dep in step.dependencies` loop of the validator:
self-dependency and missing-dependency checks, first failure wins. -/
def checkStepDeps (sid : Int) (ids : List Int) : List Int → Except String Unit
  | [] => Except.ok ()
  | d :: ds =>
    if d = sid then Except.error (selfErrMsg sid)
    else if d ∉ ids then Except.error (missingErrMsg sid d)
    else checkStepDeps sid ids ds

/-- The outer `for step in plan.execution_graph` loop of the
self/missing-dependency checks. -/
def checkDeps (ids : List Int) : List ExecutionStep → Except String Unit
  | [] => Except.ok ()
  | s :: ss =>
    match checkStepDeps s.step_id ids s.dependencies with
    | Except.error e => Except.error e
    | Except.ok () => checkDeps ids ss

/-- `steps_by_id[i].dependencies`, as a total function: the dependency
list of the (under a duplicate-free graph, unique) step with id `i`,
and `[]` when no such step exists.  The DFS only ever looks up ids
present in the graph, because it runs after the missing-dependency
check. -/
def depsOf (g : List ExecutionStep) (i : Int) : List Int :=
  match g.find? (fun s => s.step_id == i) with
  | Option.none => []
  | Option.some s => s.dependencies

mutual
/-- The recursive `visit(step_id)` of the validator's DFS.  Arguments:
fuel, the node, the `visiting` stack and the `visited` set (the Python
sets, as lists; `visiting` is restored on return by construction, and
the updated `visited` is returned on success). -/
def visitF (deps : Int → List Int) (fuel : Nat) (sid : Int)
    (visiting visited : List Int) : Option (Except String (List Int)) :=
  match fuel with
  | 0 => Option.none
  | f + 1 =>
    if sid ∈ visited then Option.some (Except.ok visited)
    else if sid ∈ visiting then Option.some (Except.error (cycleErrMsg sid))
    else
      match visitListF deps f (deps sid) (sid :: visiting) visited with
      | Option.none => Option.none
      | Option.some (Except.error e) => Option.some (Except.error e)
      | Option.some (Except.ok v) => Option.some (Except.ok (sid :: v))
termination_by (fuel, 0)

/-- The `for dep_id in steps_by_id[step_id].dependencies: visit(dep_id)`
loop: visit each dependency in order, threading `visited` and
propagating the first error. -/
def visitListF (deps : Int → List Int) (fuel : Nat) (l : List Int)
    (visiting visited : List Int) : Option (Except String (List Int)) :=
  match l with
  | [] => Option.some (Except.ok visited)
  | d :: ds =>
    match visitF deps fuel d visiting visited with
    | Option.none => Option.none
    | Option.some (Except.error e) => Option.some (Except.error e)
    | Option.some (Except.ok v) => visitListF deps fuel ds visiting v
termination_by (fuel, l.length + 1)
end

/-- The `for step_id in steps_by_id: visit(step_id)` driver loop.  The
dict iterates its keys; when it runs the duplicate check has already
passed, so the key order is exactly `roots` (the graph's id list). -/
def dfsAll (deps : Int → List Int) (fuel : Nat) :
    List Int → List Int → Except String Unit
  | [], _ => Except.ok ()
  | r :: rs, visited =>
    match visitF deps fuel r [] visited with
    | Option.none => Except.error "recursion limit exceeded"
    | Option.some (Except.error e) => Except.error e
    | Option.some (Except.ok v) => dfsAll deps fuel rs v

/-- `ExecutionRouter._validate_execution_graph`.  The duplicate check
compares the number of distinct ids (`dict` size) with the graph
length; the per-step checks and the DFS follow the source order. -/
def validateExecutionGraph (g : List ExecutionStep) : Except String Unit :=
  let ids := g.map (fun s => s.step_id)
  if ids.dedup.length ≠ g.length then Except.error dupErrMsg
  else
    match checkDeps ids g with
    | Except.error e => Except.error e
    | Except.ok () => dfsAll (depsOf g) (g.length + 1) ids []

/-- The direct dependency relation of a graph: `DepEdge g a b` holds
when some step of `g` with id `a` lists `b` among its dependencies. -/
def DepEdge (g : List ExecutionStep) (a b : Int) : Prop :=
  ∃ s ∈ g, s.step_id = a ∧ b ∈ s.dependencies

/-- The dependency relation contains a cycle: following dependency
edges from some step returns to that step. -/
def HasCycle (g : List ExecutionStep) : Prop :=
  ∃ a, Relation.TransGen (DepEdge g) a a

/-- Structural well-formedness of an execution graph, as the claim
states it: duplicate-free ids, no self-dependency, every dependency id
present in the graph, and an acyclic dependency relation. -/
def WellFormedGraph (g : List ExecutionStep) : Prop :=
  (g.map (fun s => s.step_id)).Nodup ∧
  (∀ s ∈ g, s.step_id ∉ s.dependencies) ∧
  (∀ s ∈ g, ∀ d ∈ s.dependencies, d ∈ g.map (fun s => s.step_id)) ∧
  ¬ HasCycle g

/-! ### The step executor and the plan execution loop

`execute_step` renders a prompt via the external template engine and
passes it to the external LLM gateway; since the oracle `LLMClient` is
indexed by the global call counter, the prompt string itself plays no
role in any modelled behaviour and prompt construction is not
reproduced.  In-place mutation of the step object becomes returning
the updated step. -/

/-- Result dict of `execute_step` (`step_id`/`output`/`error`/`model`/
`success` keys). -/
structure StepResult where
  step_id : Int
  output : Option PyVal := Option.none
  error : Option String := Option.none
  model : String := ""
  success : Bool
  deriving DecidableEq

/-- `ExecutionRouter._mark_step_started`. -/
def markStepStarted (s : ExecutionStep) (w : World) : ExecutionStep × World :=
  ({ s with status := StepStatus.in_progress, started_at := Option.some w.clock },
   { w with clock := w.clock + 1 })

/-- `ExecutionRouter._mark_step_completed`. -/
def markStepCompleted (s : ExecutionStep) (output : PyVal) (w : World) :
    ExecutionStep × World :=
  ({ s with
      completed_at := Option.some w.clock
      output := Option.some output
      status := StepStatus.completed },
   { w with clock := w.clock + 1 })

/-- `ExecutionRouter._mark_step_failed` (note: it does not stamp
`completed_at`). -/
def markStepFailed (s : ExecutionStep) (error : String) : ExecutionStep :=
  { s with status := StepStatus.failed, error := Option.some error }

/-- `ExecutionRouter._call_model`: one `llm.complete` call, consuming
one index of the oracle. -/
def callModel (client : LLMClient) (w : World) : Except String PyDict × World :=
  (client w.calls, { w with calls := w.calls + 1 })

/-- `RETRY_DELAY_BASE * (2 ** attempt)`. -/
def retryDelay (attempt : Nat) : ℚ := RETRY_DELAY_BASE * 2 ^ attempt

/-- Python `f"{x}"` on an `Optional[str]`: `None` renders as "None". -/
def pyStrOfOptStr : Option String → String
  | Option.none => "None"
  | Option.some s => s

/-- The `for attempt in range(MAX_RETRIES)` loop of
`_execute_with_retries`: the list argument is the remaining attempt
indices.  A raised call (`Except.error`) records the backoff sleep when
`attempt < MAX_RETRIES - 1`; a truthy response dict completes the step
with its `content` entry; a falsy response sets
`last_error = "Empty response"` and retries. -/
def executeRetryLoop (client : LLMClient) (actualModel : String)
    (s : ExecutionStep) (lastError : Option String) (w : World) :
    List Nat → ExecutionStep × World × StepResult
  | [] =>
    let msg := "Failed after " ++ toString MAX_RETRIES ++ " attempts: " ++
      pyStrOfOptStr lastError
    let s' := markStepFailed s msg
    (s', w, { step_id := s'.step_id, error := s'.error, model := actualModel,
              success := false })
  | attempt :: rest =>
    match callModel client w with
    | (Except.ok response, w') =>
      if response.truthy then
        let (s', w'') := markStepCompleted s (response.get "content") w'
        (s', w'', { step_id := s'.step_id, output := s'.output,
                    model := actualModel, success := true })
      else
        executeRetryLoop client actualModel s (Option.some "Empty response") w' rest
    | (Except.error exc, w') =>
      let w'' := if attempt < MAX_RETRIES - 1 then
          { w' with sleeps := w'.sleeps ++ [retryDelay attempt] }
        else w'
      executeRetryLoop client actualModel s (Option.some exc) w'' rest

/-- `ExecutionRouter._execute_with_retries`. -/
def executeWithRetries (client : LLMClient) (s : ExecutionStep)
    (actualModel : String) (w : World) : ExecutionStep × World × StepResult :=
  executeRetryLoop client actualModel s Option.none w (List.range MAX_RETRIES)

/-- `ExecutionRouter.execute_step` (the `context` argument only feeds
prompt construction and is omitted, see the section comment). -/
def executeStep (client : LLMClient) (s : ExecutionStep)
    (model : Option String) (w : World) : ExecutionStep × World × StepResult :=
  let actualModel := model.getD s.assigned_model
  let sw := markStepStarted s w
  executeWithRetries client sw.1 actualModel sw.2

/-- Writing the mutated step object back into the plan's graph: Python
mutates the shared object in place; replacing by `step_id` coincides
with that as long as ids are unique, which validation guarantees
before the loop runs. -/
def updateStep (g : List ExecutionStep) (s : ExecutionStep) :
    List ExecutionStep :=
  g.map (fun t => if t.step_id = s.step_id then s else t)

/-- The `for step in executable_steps` body of `execute_plan`: execute
each step of the batch in order, incrementing `step_count`, and on the
first failure set `plan.status = FAILED` and return early (the `Bool`
component).  The world additionally logs each executed step id and its
success flag. -/
def runBatch (client : LLMClient) :
    List ExecutionStep → Plan → World → Nat → Plan × World × Nat × Bool
  | [], p, w, cnt => (p, w, cnt, false)
  | s :: rest, p, w, cnt =>
    let w₀ := { w with log := w.log ++ [s.step_id] }
    let r := executeStep client s Option.none w₀
    let w' := { r.2.1 with results := (r.2.1).results ++ [r.2.2.success] }
    let p' := { p with execution_graph := updateStep p.execution_graph r.1 }
    if r.2.2.success then runBatch client rest p' w' (cnt + 1)
    else ({ p' with status := PlanStatus.failed }, w', cnt + 1, true)

/-- The `while step_count < max_steps` loop of `execute_plan`.  The
`Bool` of the result records whether the loop returned early because a
step failed. -/
def execLoop (client : LLMClient) (max_steps : Nat) (p : Plan) (w : World)
    (cnt : Nat) : Plan × World × Nat × Bool :=
  if _h : cnt < max_steps then
    let batch := getExecutableSteps p
    if hb : batch.isEmpty then (p, w, cnt, false)
    else
      let r := runBatch client batch p w cnt
      if r.2.2.2 then (r.1, r.2.1, r.2.2.1, true)
      else if (getExecutableSteps r.1).isEmpty then (r.1, r.2.1, r.2.2.1, false)
      else execLoop client max_steps r.1 r.2.1 r.2.2.1
  else (p, w, cnt, false)
termination_by max_steps - cnt
decreasing_by
  have mono : ∀ (l : List ExecutionStep) (q : Plan) (w' : World) (c : Nat),
      c ≤ (runBatch client l q w' c).2.2.1 := by
    intro l
    induction l with
    | nil => intro q w' c; rw [runBatch]
    | cons x xs ih =>
      intro q w' c
      rw [runBatch]
      simp only
      split
      · exact Nat.le_trans (Nat.le_succ c) (ih _ _ _)
      · exact Nat.le_succ c
  have key : ∀ (l : List ExecutionStep) (q : Plan) (w' : World) (c : Nat),
      l.isEmpty = false → c < (runBatch client l q w' c).2.2.1 := by
    intro l q w' c hl
    cases l with
    | nil => simp at hl
    | cons x xs =>
      rw [runBatch]
      simp only
      split
      · exact Nat.lt_of_lt_of_le (Nat.lt_succ_self c) (mono _ _ _ _)
      · exact Nat.lt_succ_self c
  have step := key (getExecutableSteps p) p w cnt (by simpa using hb)
  omega

/-- Python truthiness of `step.output` (an `Optional[Any]`). -/
def truthyOutput : Option PyVal → Bool
  | Option.none => false
  | Option.some v => v.truthy

/-- `ExecutionRouter._aggregate_outputs`: every step whose `output` is
truthy contributes `"step_<id>" -> output`, in graph order. -/
def aggregateOutputs (p : Plan) : List (String × PyVal) :=
  p.execution_graph.foldl (fun outputs s =>
    if truthyOutput s.output then
      outputs ++ [("step_" ++ toString s.step_id, s.output.getD PyVal.none)]
    else outputs) []

/-- `ExecutionRouter.execute_plan`.  A validation failure propagates as
the raised exception (`Except.error`) with the plan object untouched;
otherwise the returned plan carries the in-place mutations and the
exception slot is `Except.ok ()`.  The unused `context` argument only
feeds prompt construction and is omitted. -/
def executePlan (client : LLMClient) (p : Plan) (w : World)
    (max_steps : Nat := 100) : Plan × World × Except String Unit :=
  match validateExecutionGraph p.execution_graph with
  | Except.error e => (p, w, Except.error e)
  | Except.ok _ =>
    let p₁ := { p with status := PlanStatus.executing }
    let r := execLoop client max_steps p₁ w 0
    if r.2.2.2 then (r.1, r.2.1, Except.ok ())
    else
      let p₂ := r.1
      let all_completed := p₂.execution_graph.all (fun s =>
        decide (s.status = StepStatus.completed) ||
          decide (s.status = StepStatus.skipped))
      if all_completed then
        ({ p₂ with
            status := PlanStatus.completed
            final_output := Option.some (aggregateOutputs p₂) }, r.2.1,
         Except.ok ())
      else
        ({ p₂ with status := PlanStatus.failed }, r.2.1, Except.ok ())

/-- A transient failure exactly as the code treats it: the `n`-th LLM
call raised, or returned a falsy (empty) response dict. -/
def transientAt (client : LLMClient) (n : Nat) : Prop :=
  (∃ m, client n = Except.error m) ∨ ∃ d, client n = Except.ok d ∧ d.truthy = false

/-- The `n`-th LLM call returns a truthy (non-empty) response dict. -/
def respTruthyAt (client : LLMClient) (n : Nat) : Prop :=
  ∃ d, client n = Except.ok d ∧ d.truthy = true

/-! ### Concrete clients and plans used in witnesses and
counterexamples -/

/-- A client whose every call succeeds with content `"x"`. -/
def okClientX : LLMClient := fun _ => Except.ok [("content", PyVal.str "x")]

/-- A client whose every call raises `"boom"`. -/
def raiseClient : LLMClient := fun _ => Except.error "boom"

/-- A client returning a truthy dict whose `content` is the empty
string. -/
def emptyContentClient : LLMClient := fun _ => Except.ok [("content", PyVal.str "")]

/-- Call `n` returns content `"a"`, `"b"`, `"c"` by call index. -/
def abcClient : LLMClient := fun n =>
  Except.ok [("content", PyVal.str (["a", "b", "c"].getD n "z"))]

def stepA : ExecutionStep := { step_id := 1 }

def stepB : ExecutionStep := { step_id := 2, dependencies := [1] }

/-- Step B depends on step A. -/
def planAB : Plan := { execution_graph := [stepA, stepB] }

/-- Two independent steps. -/
def planTwoIndep : Plan := { execution_graph := [{ step_id := 1 }, { step_id := 2 }] }

/-- Three independent steps `1`, `2`, `3`. -/
def planABC : Plan :=
  { execution_graph := [{ step_id := 1 }, { step_id := 2 }, { step_id := 3 }] }

/-- A two-step dependency cycle. -/
def planCyclic : Plan :=
  { execution_graph := [{ step_id := 1, dependencies := [2] },
      { step_id := 2, dependencies := [1] }] }

/-- Step 1 is SKIPPED and pending step 2 depends on it. -/
def planSkipDep : Plan :=
  { execution_graph := [{ step_id := 1, status := StepStatus.skipped }, stepB] }

/-- A single pending step. -/
def planOne : Plan := { execution_graph := [stepA] }

/-- The edge relation the DFS actually follows: `b` is listed by the
dependency function at `a`. -/
def EdgeD (deps : Int → List Int) (a b : Int) : Prop := b ∈ deps a

/-- No cycle is reachable from `x` along `EdgeD` edges. -/
def NoCycFrom (deps : Int → List Int) (x : Int) : Prop :=
  ∀ y, Relation.ReflTransGen (EdgeD deps) x y →
    ¬ Relation.TransGen (EdgeD deps) y y

/-- The DFS invariant for the `visited` set: no member has a reachable
cycle. -/
def GoodSet (deps : Int → List Int) (vd : List Int) : Prop :=
  ∀ x ∈ vd, NoCycFrom deps x

/-- The configuration behind claim C10: the plan's ids are
duplicate-free, some step `t` with id `d` is SKIPPED, and some PENDING
step with id `sid` lists `d` among its dependencies. -/
def StuckPair (p : Plan) (sid d : Int) : Prop :=
  (p.execution_graph.map (fun s => s.step_id)).Nodup ∧
  (∃ t ∈ p.execution_graph, t.step_id = d ∧ t.status = StepStatus.skipped) ∧
  (∃ s ∈ p.execution_graph, s.step_id = sid ∧
    s.status = StepStatus.pending ∧ d ∈ s.dependencies)

end PlanWeaver

namespace PlanWeaver

/-- C2 -- `get_executable_steps(plan)` returns exactly the steps of
`plan.execution_graph` whose status is PENDING and all of whose
dependency ids refer to a COMPLETED step of the plan, in the relative
order of `plan.execution_graph` (a `List.filter` both preserves order
and returns `[]` when nothing qualifies); the function is pure, so it
mutates nothing. -/
theorem getExecutableSteps_correct (plan : Plan) :
    getExecutableSteps plan = plan.execution_graph.filter
      (fun s => decide (s.status = StepStatus.pending ∧
        ∀ d ∈ s.dependencies, ∃ t ∈ plan.execution_graph,
          t.step_id = d ∧ t.status = StepStatus.completed)) := by
  unfold getExecutableSteps
  rw [List.filter_filter]
  apply List.filter_congr
  intro s _
  rw [Bool.eq_iff_iff]
  simp only [List.all_eq_true, List.contains, List.elem_iff, decide_eq_true_eq,
    Bool.and_eq_true, List.mem_map, List.mem_filter]
  constructor
  · rintro ⟨hall, hpend⟩
    refine ⟨hpend, fun d hd => ?_⟩
    obtain ⟨t, ⟨ht, htc⟩, hid⟩ := hall d hd
    exact ⟨t, ht, hid, htc⟩
  · rintro ⟨hpend, hall⟩
    refine ⟨fun d hd => ?_, hpend⟩
    obtain ⟨t, ht, hid, htc⟩ := hall d hd
    exact ⟨t, ⟨ht, htc⟩, hid⟩

/-! ### Lemmas about the DFS of `_validate_execution_graph` -/

/-- A node all of whose direct dependencies have no reachable cycle has
no reachable cycle itself. -/
theorem noCycFrom_of_deps (deps : Int → List Int) (sid : Int)
    (h : ∀ d ∈ deps sid, NoCycFrom deps d) : NoCycFrom deps sid := by
  intro y hy hcyc
  rcases Relation.ReflTransGen.cases_head hy with heq | ⟨c, hc, hcy⟩
  · subst heq
    rcases Relation.TransGen.head'_iff.mp hcyc with ⟨c, hc, hcs⟩
    exact h c hc _ hcs hcyc
  · exact h c hc y hcy hcyc

/-- A duplicate-free list contained in `ids` has at most as many
elements as `ids` has distinct elements. -/
theorem nodup_length_le_dedup (ids vg : List Int) (hnd : vg.Nodup)
    (hsub : ∀ y ∈ vg, y ∈ ids) : vg.length ≤ ids.dedup.length := by
  have h1 : vg.toFinset.card = vg.length := List.toFinset_card_of_nodup hnd
  have h2 : ids.toFinset.card = ids.dedup.length := List.card_toFinset ids
  have h3 : vg.toFinset ⊆ ids.toFinset := by
    intro x hx
    rw [List.mem_toFinset] at hx ⊢
    exact hsub x hx
  calc vg.length = vg.toFinset.card := h1.symm
    _ ≤ ids.toFinset.card := Finset.card_le_card h3
    _ = ids.dedup.length := h2

/-- Behaviour of the DFS on success: the `visited` set only grows, the
visited node (resp. every node of the visited list) ends up in it, and
the no-reachable-cycle invariant of `visited` is preserved. -/
theorem visit_ok_spec (deps : Int → List Int) : ∀ f : Nat,
    (∀ sid vg vd v', visitF deps f sid vg vd = Option.some (Except.ok v') →
      (∀ x ∈ vd, x ∈ v') ∧ sid ∈ v' ∧ (GoodSet deps vd → GoodSet deps v')) ∧
    (∀ l vg vd v', visitListF deps f l vg vd = Option.some (Except.ok v') →
      (∀ x ∈ vd, x ∈ v') ∧ (∀ d ∈ l, d ∈ v') ∧
        (GoodSet deps vd → GoodSet deps v')) := by
  intro f
  induction f with
  | zero =>
    constructor
    · intro sid vg vd v' h
      rw [visitF] at h
      simp at h
    · intro l vg vd v' h
      cases l with
      | nil =>
        rw [visitListF] at h
        simp only [Option.some.injEq, Except.ok.injEq] at h
        subst h
        exact ⟨fun x hx => hx, by simp, fun hg => hg⟩
      | cons d ds =>
        rw [visitListF] at h
        rw [visitF] at h
        simp at h
  | succ f ih =>
    have h1 : ∀ sid vg vd v',
        visitF deps (f + 1) sid vg vd = Option.some (Except.ok v') →
        (∀ x ∈ vd, x ∈ v') ∧ sid ∈ v' ∧
          (GoodSet deps vd → GoodSet deps v') := by
      intro sid vg vd v' h
      rw [visitF] at h
      by_cases hvd : sid ∈ vd
      · simp only [if_pos hvd, Option.some.injEq, Except.ok.injEq] at h
        subst h
        exact ⟨fun x hx => hx, hvd, fun hg => hg⟩
      · by_cases hvg : sid ∈ vg
        · simp [if_neg hvd, if_pos hvg] at h
        · simp only [if_neg hvd, if_neg hvg] at h
          cases hres : visitListF deps f (deps sid) (sid :: vg) vd with
          | none => rw [hres] at h; simp at h
          | some r =>
            cases r with
            | error e => rw [hres] at h; simp at h
            | ok v =>
              rw [hres] at h
              simp only [Option.some.injEq, Except.ok.injEq] at h
              subst h
              obtain ⟨hmono, hdone, hinv⟩ := ih.2 (deps sid) (sid :: vg) vd v hres
              refine ⟨fun x hx => List.mem_cons_of_mem _ (hmono x hx),
                List.mem_cons_self _ _, fun hg => ?_⟩
              intro x hx
              rcases List.mem_cons.mp hx with heq | hxv
              · subst heq
                exact noCycFrom_of_deps deps x fun d hd => hinv hg d (hdone d hd)
              · exact hinv hg x hxv
    refine ⟨h1, ?_⟩
    intro l
    induction l with
    | nil =>
      intro vg vd v' h
      rw [visitListF] at h
      simp only [Option.some.injEq, Except.ok.injEq] at h
      subst h
      exact ⟨fun x hx => hx, by simp, fun hg => hg⟩
    | cons d ds ihl =>
      intro vg vd v' h
      rw [visitListF] at h
      cases hres : visitF deps (f + 1) d vg vd with
      | none => rw [hres] at h; simp at h
      | some r =>
        cases r with
        | error e => rw [hres] at h; simp at h
        | ok v =>
          rw [hres] at h
          simp only at h
          obtain ⟨hmono₁, hdone₁, hinv₁⟩ := h1 d vg vd v hres
          obtain ⟨hmono₂, hdone₂, hinv₂⟩ := ihl vg v v' h
          refine ⟨fun x hx => hmono₂ x (hmono₁ x hx), ?_,
            fun hg => hinv₂ (hinv₁ hg)⟩
          intro e he
          rcases List.mem_cons.mp he with heq | hds
          · subst heq
            exact hmono₂ e hdone₁
          · exact hdone₂ e hds

/-- Soundness of the DFS error: if a visit raises the cycle error while
every node on the `visiting` stack reaches the visited node, the edge
relation contains a cycle. -/
theorem visit_error_cycle (deps : Int → List Int) : ∀ f : Nat,
    (∀ sid vg vd e, visitF deps f sid vg vd = Option.some (Except.error e) →
      (∀ y ∈ vg, Relation.TransGen (EdgeD deps) y sid) →
      ∃ a, Relation.TransGen (EdgeD deps) a a) ∧
    (∀ l vg vd e, visitListF deps f l vg vd = Option.some (Except.error e) →
      (∀ d ∈ l, ∀ y ∈ vg, Relation.TransGen (EdgeD deps) y d) →
      ∃ a, Relation.TransGen (EdgeD deps) a a) := by
  intro f
  induction f with
  | zero =>
    constructor
    · intro sid vg vd e h
      rw [visitF] at h
      simp at h
    · intro l vg vd e h
      cases l with
      | nil => rw [visitListF] at h; simp at h
      | cons d ds =>
        rw [visitListF] at h
        rw [visitF] at h
        simp at h
  | succ f ih =>
    have h1 : ∀ sid vg vd e,
        visitF deps (f + 1) sid vg vd = Option.some (Except.error e) →
        (∀ y ∈ vg, Relation.TransGen (EdgeD deps) y sid) →
        ∃ a, Relation.TransGen (EdgeD deps) a a := by
      intro sid vg vd e h hstack
      rw [visitF] at h
      by_cases hvd : sid ∈ vd
      · simp [if_pos hvd] at h
      · by_cases hvg : sid ∈ vg
        · exact ⟨sid, hstack sid hvg⟩
        · simp only [if_neg hvd, if_neg hvg] at h
          cases hres : visitListF deps f (deps sid) (sid :: vg) vd with
          | none => rw [hres] at h; simp at h
          | some r =>
            cases r with
            | ok v => rw [hres] at h; simp at h
            | error e' =>
              refine ih.2 (deps sid) (sid :: vg) vd e' hres ?_
              intro d hd y hy
              rcases List.mem_cons.mp hy with heq | hyv
              · subst heq
                exact Relation.TransGen.single hd
              · exact Relation.TransGen.tail (hstack y hyv) hd
    refine ⟨h1, ?_⟩
    intro l
    induction l with
    | nil =>
      intro vg vd e h
      rw [visitListF] at h
      simp at h
    | cons d ds ihl =>
      intro vg vd e h hstack
      rw [visitListF] at h
      cases hres : visitF deps (f + 1) d vg vd with
      | none => rw [hres] at h; simp at h
      | some r =>
        cases r with
        | error e' =>
          exact h1 d vg vd e' hres (fun y hy => hstack d (List.mem_cons_self _ _) y hy)
        | ok v =>
          rw [hres] at h
          simp only at h
          exact ihl vg v e h
            (fun d' hd' y hy => hstack d' (List.mem_cons_of_mem _ hd') y hy)

/-- Fuel sufficiency: with `visiting` a duplicate-free subset of `ids`,
a node of `ids`, dependencies closed under `ids`, and fuel at least
`|distinct ids| + 1 - |visiting|`, the DFS never runs out of fuel. -/
theorem visit_fuel_enough (deps : Int → List Int) (ids : List Int)
    (closed : ∀ x ∈ ids, ∀ d ∈ deps x, d ∈ ids) : ∀ f : Nat,
    (∀ sid vg vd, sid ∈ ids → vg.Nodup → (∀ y ∈ vg, y ∈ ids) →
      ids.dedup.length + 1 ≤ f + vg.length →
      visitF deps f sid vg vd ≠ Option.none) ∧
    (∀ l vg vd, (∀ d ∈ l, d ∈ ids) → vg.Nodup → (∀ y ∈ vg, y ∈ ids) →
      ids.dedup.length + 1 ≤ f + vg.length →
      visitListF deps f l vg vd ≠ Option.none) := by
  intro f
  induction f with
  | zero =>
    constructor
    · intro sid vg vd hsid hnd hsub hfuel
      have := nodup_length_le_dedup ids vg hnd hsub
      omega
    · intro l vg vd hl hnd hsub hfuel
      cases l with
      | nil => rw [visitListF]; simp
      | cons d ds =>
        have := nodup_length_le_dedup ids vg hnd hsub
        omega
  | succ f ih =>
    have h1 : ∀ sid vg vd, sid ∈ ids → vg.Nodup → (∀ y ∈ vg, y ∈ ids) →
        ids.dedup.length + 1 ≤ (f + 1) + vg.length →
        visitF deps (f + 1) sid vg vd ≠ Option.none := by
      intro sid vg vd hsid hnd hsub hfuel
      rw [visitF]
      by_cases hvd : sid ∈ vd
      · simp [if_pos hvd]
      · by_cases hvg : sid ∈ vg
        · simp [if_neg hvd, if_pos hvg]
        · simp only [if_neg hvd, if_neg hvg]
          cases hres : visitListF deps f (deps sid) (sid :: vg) vd with
          | none =>
            exfalso
            refine ih.2 (deps sid) (sid :: vg) vd (fun d hd => closed sid hsid d hd)
              (List.nodup_cons.mpr ⟨hvg, hnd⟩) ?_ ?_ hres
            · intro y hy
              rcases List.mem_cons.mp hy with heq | hyv
              · subst heq; exact hsid
              · exact hsub y hyv
            · simp only [List.length_cons]
              omega
          | some r => cases r <;> simp
    refine ⟨h1, ?_⟩
    intro l
    induction l with
    | nil =>
      intro vg vd _ _ _ _
      rw [visitListF]
      simp
    | cons d ds ihl =>
      intro vg vd hl hnd hsub hfuel
      rw [visitListF]
      cases hres : visitF deps (f + 1) d vg vd with
      | none =>
        exact absurd hres (h1 d vg vd (hl d (List.mem_cons_self _ _)) hnd hsub hfuel)
      | some r =>
        cases r with
        | error e => simp
        | ok v =>
          simp only
          exact ihl vg v (fun d' hd' => hl d' (List.mem_cons_of_mem _ hd')) hnd hsub hfuel

/-- If the driver loop returns without error then every root has no
reachable cycle. -/
theorem dfsAll_ok_noCyc (deps : Int → List Int) (fuel : Nat) :
    ∀ roots vd, dfsAll deps fuel roots vd = Except.ok () →
      GoodSet deps vd → ∀ r ∈ roots, NoCycFrom deps r := by
  intro roots
  induction roots with
  | nil => intro vd _ _ r hr; simp at hr
  | cons r rs ih =>
    intro vd h hg r' hr'
    rw [dfsAll] at h
    cases hres : visitF deps fuel r [] vd with
    | none => rw [hres] at h; simp at h
    | some res =>
      cases res with
      | error e => rw [hres] at h; simp at h
      | ok v =>
        rw [hres] at h
        simp only at h
        obtain ⟨_, hdone, hinv⟩ := (visit_ok_spec deps fuel).1 r [] vd v hres
        rcases List.mem_cons.mp hr' with heq | hrs
        · subst heq
          exact hinv hg r' hdone
        · exact ih v h (hinv hg) r' hrs

/-- If the dependency function is closed under `ids`, the edge relation
is acyclic, and the fuel is generous, the driver loop succeeds. -/
theorem dfsAll_ok_of (deps : Int → List Int) (ids : List Int) (fuel : Nat)
    (closed : ∀ x ∈ ids, ∀ d ∈ deps x, d ∈ ids)
    (hfuel : ids.dedup.length + 1 ≤ fuel)
    (nocyc : ¬ ∃ a, Relation.TransGen (EdgeD deps) a a) :
    ∀ roots vd, (∀ r ∈ roots, r ∈ ids) →
      dfsAll deps fuel roots vd = Except.ok () := by
  intro roots
  induction roots with
  | nil => intro vd _; rw [dfsAll]
  | cons r rs ih =>
    intro vd hroots
    rw [dfsAll]
    cases hres : visitF deps fuel r [] vd with
    | none =>
      exact absurd hres ((visit_fuel_enough deps ids closed fuel).1 r [] vd
        (hroots r (List.mem_cons_self _ _)) List.nodup_nil (by simp) (by simpa))
    | some res =>
      cases res with
      | error e =>
        exact absurd ((visit_error_cycle deps fuel).1 r [] vd e hres (by simp)) nocyc
      | ok v =>
        simp only
        exact ih v (fun r' hr' => hroots r' (List.mem_cons_of_mem _ hr'))

/-- The per-step dependency check succeeds iff no listed dependency is
the step itself or missing from `ids`. -/
theorem checkStepDeps_ok_iff (sid : Int) (ids : List Int) (l : List Int) :
    checkStepDeps sid ids l = Except.ok () ↔ ∀ d ∈ l, d ≠ sid ∧ d ∈ ids := by
  induction l with
  | nil => simp [checkStepDeps]
  | cons d ds ih =>
    rw [checkStepDeps]
    by_cases h1 : d = sid
    · simp [if_pos h1, h1]
    · by_cases h2 : d ∈ ids
      · simp [if_neg h1, h2, ih, h1]
      · simp [if_neg h1, h2]

/-- The whole dependency-check pass succeeds iff every step's listed
dependencies avoid the step's own id and exist in `ids`. -/
theorem checkDeps_ok_iff (ids : List Int) (g : List ExecutionStep) :
    checkDeps ids g = Except.ok () ↔
      ∀ s ∈ g, ∀ d ∈ s.dependencies, d ≠ s.step_id ∧ d ∈ ids := by
  induction g with
  | nil => simp [checkDeps]
  | cons s ss ih =>
    rw [checkDeps]
    cases hcs : checkStepDeps s.step_id ids s.dependencies with
    | error e =>
      simp only
      constructor
      · intro h; simp at h
      · intro h
        exfalso
        have := (checkStepDeps_ok_iff s.step_id ids s.dependencies).mpr
          (h s (List.mem_cons_self _ _))
        rw [this] at hcs
        simp at hcs
    | ok u =>
      cases u
      simp only
      rw [ih]
      constructor
      · intro h t ht
        rcases List.mem_cons.mp ht with heq | hts
        · subst heq
          exact (checkStepDeps_ok_iff t.step_id ids t.dependencies).mp hcs
        · exact h t hts
      · intro h t ht
        exact h t (List.mem_cons_of_mem _ ht)

/-- The `dict`-size duplicate check: the number of distinct ids equals
the list length iff the ids are duplicate-free. -/
theorem dedup_length_eq_iff (l : List Int) :
    l.dedup.length = l.length ↔ l.Nodup := by
  constructor
  · intro h
    have := (List.dedup_sublist l).eq_of_length h
    exact List.dedup_eq_self.mp this
  · intro h
    rw [List.dedup_eq_self.mpr h]

/-- Every `depsOf` edge is a dependency edge of the graph. -/
theorem edgeD_sub_depEdge (g : List ExecutionStep) (a b : Int)
    (h : EdgeD (depsOf g) a b) : DepEdge g a b := by
  unfold EdgeD depsOf at h
  cases hf : g.find? (fun s => s.step_id == a) with
  | none => rw [hf] at h; simp at h
  | some s =>
    rw [hf] at h
    refine ⟨s, List.mem_of_find?_eq_some hf, ?_, h⟩
    have := List.find?_some hf
    simpa using this

/-- The source of a `depsOf` edge is one of the graph's ids. -/
theorem edgeD_source_mem (g : List ExecutionStep) (a b : Int)
    (h : EdgeD (depsOf g) a b) : a ∈ g.map (fun s => s.step_id) := by
  unfold EdgeD depsOf at h
  cases hf : g.find? (fun s => s.step_id == a) with
  | none => rw [hf] at h; simp at h
  | some s =>
    have hmem := List.mem_of_find?_eq_some hf
    have hid : s.step_id = a := by simpa using List.find?_some hf
    exact List.mem_map.mpr ⟨s, hmem, hid⟩

/-- Under duplicate-free ids, every dependency edge of the graph is a
`depsOf` edge (the dict lookup finds the unique step with that id). -/
theorem depEdge_sub_edgeD (g : List ExecutionStep)
    (hnd : (g.map (fun s => s.step_id)).Nodup) (a b : Int)
    (h : DepEdge g a b) : EdgeD (depsOf g) a b := by
  obtain ⟨s, hs, hsid, hb⟩ := h
  unfold EdgeD depsOf
  cases hf : g.find? (fun s => s.step_id == a) with
  | none =>
    exfalso
    have := List.find?_eq_none.mp hf s hs
    simp [hsid] at this
  | some s₀ =>
    have hmem := List.mem_of_find?_eq_some hf
    have hid : s₀.step_id = a := by simpa using List.find?_some hf
    have : s₀ = s := List.inj_on_of_nodup_map hnd hmem hs (by rw [hid, hsid])
    rw [this]
    exact hb

/-- `_validate_execution_graph` succeeds exactly on well-formed graphs. -/
theorem validateExecutionGraph_ok_iff (g : List ExecutionStep) :
    validateExecutionGraph g = Except.ok () ↔ WellFormedGraph g := by
  unfold validateExecutionGraph
  have hlen : (g.map (fun s => s.step_id)).length = g.length := List.length_map g _
  constructor
  · intro h
    by_cases hdup : (g.map (fun s => s.step_id)).dedup.length ≠ g.length
    · simp [if_pos hdup] at h
    · simp only [if_neg hdup] at h
      push_neg at hdup
      have hnd : (g.map (fun s => s.step_id)).Nodup := by
        rw [← dedup_length_eq_iff]
        omega
      cases hcd : checkDeps (g.map (fun s => s.step_id)) g with
      | error e => rw [hcd] at h; simp at h
      | ok u =>
        cases u
        rw [hcd] at h
        simp only at h
        have hprops := (checkDeps_ok_iff _ g).mp hcd
        refine ⟨hnd, ?_, ?_, ?_⟩
        · intro s hs hmem
          exact (hprops s hs s.step_id hmem).1 rfl
        · intro s hs d hd
          exact (hprops s hs d hd).2
        · rintro ⟨a, hcyc⟩
          have hcycD : Relation.TransGen (EdgeD (depsOf g)) a a :=
            Relation.TransGen.mono (fun x y hxy => depEdge_sub_edgeD g hnd x y hxy) hcyc
          have hamem : a ∈ g.map (fun s => s.step_id) := by
            rcases Relation.TransGen.head'_iff.mp hcycD with ⟨b, hb, _⟩
            exact edgeD_source_mem g a b hb
          have hnc := dfsAll_ok_noCyc (depsOf g) (g.length + 1)
            (g.map (fun s => s.step_id)) [] h (by intro x hx; simp at hx)
            a hamem
          exact hnc a Relation.ReflTransGen.refl hcycD
  · rintro ⟨hnd, hself, hclosed, hnocyc⟩
    have hdup : ¬ (g.map (fun s => s.step_id)).dedup.length ≠ g.length := by
      rw [dedup_length_eq_iff _ |>.symm] at hnd
      omega
    simp only [if_neg hdup]
    have hcd : checkDeps (g.map (fun s => s.step_id)) g = Except.ok () := by
      rw [checkDeps_ok_iff]
      intro s hs d hd
      refine ⟨?_, hclosed s hs d hd⟩
      intro heq
      exact hself s hs (heq ▸ hd)
    rw [hcd]
    simp only
    refine dfsAll_ok_of (depsOf g) (g.map (fun s => s.step_id)) (g.length + 1)
      ?_ ?_ ?_ _ [] (fun r hr => hr)
    · intro x _ d hd
      obtain ⟨s, hs, _, hds⟩ := edgeD_sub_depEdge g x d hd
      exact hclosed s hs d hds
    · have := (List.dedup_sublist (g.map (fun s => s.step_id))).length_le
      omega
    · rintro ⟨a, hcyc⟩
      exact hnocyc ⟨a, Relation.TransGen.mono
        (fun x y hxy => edgeD_sub_depEdge g x y hxy) hcyc⟩

/-- C1 -- `_validate_execution_graph` raises an error if and only if the
execution graph is malformed (duplicate step ids, a step depending on
its own id, a dependency on an id absent from the graph, or a cycle in
the dependency relation); on every duplicate-free, self-loop-free,
closed, acyclic graph it returns without error (`Except.ok`, the only
alternative to an error). -/
theorem validateExecutionGraph_error_iff_malformed (g : List ExecutionStep) :
    (∃ e, validateExecutionGraph g = Except.error e) ↔ ¬ WellFormedGraph g := by
  rw [← validateExecutionGraph_ok_iff]
  constructor
  · rintro ⟨e, he⟩ hok
    rw [hok] at he
    exact Except.noConfusion he
  · intro h
    cases hv : validateExecutionGraph g with
    | error e => exact ⟨e, rfl⟩
    | ok u => cases u; exact absurd hv h

/-! ### Lemmas about `_execute_with_retries` and `execute_step` -/

/-- The retry loop never changes the step's id. -/
theorem retryLoop_step_id (client : LLMClient) (aM : String) :
    ∀ (l : List Nat) (s : ExecutionStep) (le : Option String) (w : World),
      (executeRetryLoop client aM s le w l).1.step_id = s.step_id := by
  intro l
  induction l with
  | nil =>
    intro s le w
    rw [executeRetryLoop]
    simp [markStepFailed]
  | cons a rest ih =>
    intro s le w
    rw [executeRetryLoop]
    simp only [callModel]
    cases hc : client w.calls with
    | ok response =>
      simp only
      by_cases ht : response.truthy
      · simp [ht, markStepCompleted]
      · simp only [ht, Bool.false_eq_true, if_false]
        exact ih s _ _
    | error exc =>
      simp only
      exact ih s _ _

/-- On failure the retry loop sets status FAILED and an error message,
and leaves the id, output and both timestamps of the step unchanged. -/
theorem retryLoop_fail_fields (client : LLMClient) (aM : String) :
    ∀ (l : List Nat) (s : ExecutionStep) (le : Option String) (w : World),
      (executeRetryLoop client aM s le w l).2.2.success = false →
      (executeRetryLoop client aM s le w l).1.status = StepStatus.failed ∧
      (executeRetryLoop client aM s le w l).1.completed_at = s.completed_at ∧
      (executeRetryLoop client aM s le w l).1.started_at = s.started_at ∧
      (executeRetryLoop client aM s le w l).1.output = s.output ∧
      (∃ m, (executeRetryLoop client aM s le w l).1.error = Option.some m) := by
  intro l
  induction l with
  | nil =>
    intro s le w _
    rw [executeRetryLoop]
    simp [markStepFailed]
  | cons a rest ih =>
    intro s le w hf
    rw [executeRetryLoop] at hf ⊢
    simp only [callModel] at hf ⊢
    cases hc : client w.calls with
    | ok response =>
      simp only
      rw [hc] at hf
      simp only at hf
      by_cases ht : response.truthy
      · simp only [ht, if_true] at hf
        simp [markStepCompleted] at hf
      · simp only [ht, Bool.false_eq_true, if_false] at hf ⊢
        exact ih s _ _ hf
    | error exc =>
      simp only
      rw [hc] at hf
      simp only at hf
      exact ih s _ _ hf

/-- On success the retry loop sets status COMPLETED, stamps
`completed_at` with the current clock (which the retries never
advance), and leaves `started_at` and the id unchanged. -/
theorem retryLoop_success_fields (client : LLMClient) (aM : String) :
    ∀ (l : List Nat) (s : ExecutionStep) (le : Option String) (w : World),
      (executeRetryLoop client aM s le w l).2.2.success = true →
      (executeRetryLoop client aM s le w l).1.status = StepStatus.completed ∧
      (executeRetryLoop client aM s le w l).1.completed_at = Option.some w.clock ∧
      (executeRetryLoop client aM s le w l).1.started_at = s.started_at ∧
      (executeRetryLoop client aM s le w l).2.1.clock = w.clock + 1 := by
  intro l
  induction l with
  | nil =>
    intro s le w hs
    rw [executeRetryLoop] at hs
    simp [markStepFailed] at hs
  | cons a rest ih =>
    intro s le w hs
    rw [executeRetryLoop] at hs ⊢
    simp only [callModel] at hs ⊢
    cases hc : client w.calls with
    | ok response =>
      simp only
      rw [hc] at hs
      simp only at hs
      by_cases ht : response.truthy
      · simp [ht, markStepCompleted]
      · simp only [ht, Bool.false_eq_true, if_false] at hs ⊢
        exact ih s _ _ hs
    | error exc =>
      simp only
      rw [hc] at hs
      simp only at hs
      by_cases ha : a < MAX_RETRIES - 1
      · simp only [ha, if_true] at hs ⊢
        exact ih s _ _ hs
      · simp only [ha, if_false] at hs ⊢
        exact ih s _ _ hs

/-- Index shift for the first-truthy-call characterisation: if call `n`
is transient and not truthy, looking for a first truthy call from
`n + 1` within `len` attempts is the same as looking from `n` within
`len + 1`. -/
theorem truthy_shift_iff (client : LLMClient) (n len : Nat)
    (h0 : ¬ respTruthyAt client n) (htn : transientAt client n) :
    (∃ i, i < len ∧ respTruthyAt client (n + 1 + i) ∧
      ∀ j < i, transientAt client (n + 1 + j)) ↔
    (∃ i, i < len + 1 ∧ respTruthyAt client (n + i) ∧
      ∀ j < i, transientAt client (n + j)) := by
  constructor
  · rintro ⟨i, hi, htr, hall⟩
    refine ⟨i + 1, by omega, by rwa [show n + (i + 1) = n + 1 + i by omega], ?_⟩
    intro j hj
    cases j with
    | zero => simpa using htn
    | succ k =>
      rw [show n + (k + 1) = n + 1 + k by omega]
      exact hall k (by omega)
  · rintro ⟨i, hi, htr, hall⟩
    cases i with
    | zero => exact absurd (by simpa using htr) h0
    | succ k =>
      refine ⟨k, by omega,
        by rwa [show n + (k + 1) = n + 1 + k by omega] at htr, ?_⟩
      intro j hj
      rw [show n + 1 + j = n + (j + 1) by omega]
      exact hall (j + 1) (by omega)

/-- The retry loop reports success exactly when, within the remaining
attempts, some call returns a truthy dict and every earlier call is a
transient failure (a raise or a falsy dict). -/
theorem retryLoop_success_iff (client : LLMClient) (aM : String) :
    ∀ (l : List Nat) (s : ExecutionStep) (le : Option String) (w : World),
      ((executeRetryLoop client aM s le w l).2.2.success = true ↔
        ∃ i, i < l.length ∧ respTruthyAt client (w.calls + i) ∧
          ∀ j < i, transientAt client (w.calls + j)) := by
  intro l
  induction l with
  | nil =>
    intro s le w
    rw [executeRetryLoop]
    simp [markStepFailed]
  | cons a rest ih =>
    intro s le w
    rw [executeRetryLoop]
    simp only [callModel]
    cases hc : client w.calls with
    | ok response =>
      simp only
      by_cases ht : response.truthy
      · simp only [ht, if_true, markStepCompleted]
        constructor
        · intro _
          exact ⟨0, by simp, ⟨response, by simpa using hc, ht⟩,
            fun j hj => absurd hj (Nat.not_lt_zero j)⟩
        · intro _
          trivial
      · simp only [ht, Bool.false_eq_true, if_false]
        rw [ih]
        simp only [List.length_cons]
        exact truthy_shift_iff client w.calls rest.length
          (by rintro ⟨d, hd, htd⟩; rw [hc] at hd; cases hd; exact ht htd)
          (Or.inr ⟨response, hc, by simpa using ht⟩)
    | error exc =>
      simp only
      by_cases ha : a < MAX_RETRIES - 1
      · simp only [ha, if_true]
        rw [ih]
        simp only [List.length_cons]
        exact truthy_shift_iff client w.calls rest.length
          (by rintro ⟨d, hd, _⟩; rw [hc] at hd; cases hd)
          (Or.inl ⟨exc, hc⟩)
      · simp only [ha, if_false]
        rw [ih]
        simp only [List.length_cons]
        exact truthy_shift_iff client w.calls rest.length
          (by rintro ⟨d, hd, _⟩; rw [hc] at hd; cases hd)
          (Or.inl ⟨exc, hc⟩)

/-- If the first truthy call is the `i`-th (all earlier calls being
transient failures), the retry loop completes the step with that
response's `content`, having made exactly `i + 1` calls. -/
theorem retryLoop_first_truthy (client : LLMClient) (aM : String) :
    ∀ (l : List Nat) (s : ExecutionStep) (le : Option String) (w : World)
      (i : Nat) (d : PyDict),
      i < l.length → client (w.calls + i) = Except.ok d → d.truthy = true →
      (∀ j < i, transientAt client (w.calls + j)) →
      (executeRetryLoop client aM s le w l).1.output =
        Option.some (d.get "content") ∧
      (executeRetryLoop client aM s le w l).2.1.calls = w.calls + i + 1 ∧
      (executeRetryLoop client aM s le w l).2.2.success = true := by
  intro l
  induction l with
  | nil =>
    intro s le w i d hi
    simp at hi
  | cons a rest ih =>
    intro s le w i d hi hd htd hall
    rw [executeRetryLoop]
    simp only [callModel]
    cases i with
    | zero =>
      rw [Nat.add_zero] at hd
      rw [hd]
      simp [htd, markStepCompleted]
    | succ k =>
      have h0 := hall 0 (by omega)
      rw [Nat.add_zero] at h0
      have hk : k < rest.length := by simpa using Nat.lt_of_succ_lt_succ hi
      have hd' : client (w.calls + 1 + k) = Except.ok d := by
        rw [show w.calls + 1 + k = w.calls + (k + 1) by omega]
        exact hd
      have hall' : ∀ j, j < k → transientAt client (w.calls + 1 + j) := by
        intro j hj
        rw [show w.calls + 1 + j = w.calls + (j + 1) by omega]
        exact hall (j + 1) (by omega)
      cases hc : client w.calls with
      | ok response =>
        simp only
        have hfalse : response.truthy = false := by
          rcases h0 with ⟨m, hm⟩ | ⟨d₀, hd₀, htd₀⟩
          · rw [hc] at hm
            cases hm
          · rw [hc] at hd₀
            cases hd₀
            exact htd₀
        simp only [hfalse, Bool.false_eq_true, if_false]
        have hres := ih s (Option.some "Empty response")
          { w with calls := w.calls + 1 } k d hk hd' htd hall'
        refine ⟨hres.1, ?_, hres.2.2⟩
        rw [hres.2.1]
        show w.calls + 1 + k + 1 = w.calls + (k + 1) + 1
        omega
      | error exc =>
        simp only
        by_cases ha : a < MAX_RETRIES - 1
        · simp only [ha, if_true]
          have hres := ih s (Option.some exc)
            { w with calls := w.calls + 1, sleeps := w.sleeps ++ [retryDelay a] }
            k d hk hd' htd hall'
          refine ⟨hres.1, ?_, hres.2.2⟩
          rw [hres.2.1]
          show w.calls + 1 + k + 1 = w.calls + (k + 1) + 1
          omega
        · simp only [ha, if_false]
          have hres := ih s (Option.some exc)
            { w with calls := w.calls + 1 } k d hk hd' htd hall'
          refine ⟨hres.1, ?_, hres.2.2⟩
          rw [hres.2.1]
          show w.calls + 1 + k + 1 = w.calls + (k + 1) + 1
          omega

/-- `execute_step` never changes the step's id. -/
theorem executeStep_step_id (client : LLMClient) (s : ExecutionStep)
    (m : Option String) (w : World) :
    (executeStep client s m w).1.step_id = s.step_id :=
  retryLoop_step_id client (m.getD s.assigned_model) (List.range MAX_RETRIES)
    { s with status := StepStatus.in_progress, started_at := Option.some w.clock }
    Option.none { w with clock := w.clock + 1 }

/-- On success, `execute_step` leaves the step COMPLETED with
`started_at` stamped at entry and `completed_at` stamped one tick
later. -/
theorem executeStep_success_fields (client : LLMClient) (s : ExecutionStep)
    (m : Option String) (w : World)
    (h : (executeStep client s m w).2.2.success = true) :
    (executeStep client s m w).1.status = StepStatus.completed ∧
    (executeStep client s m w).1.started_at = Option.some w.clock ∧
    (executeStep client s m w).1.completed_at = Option.some (w.clock + 1) := by
  obtain ⟨h1, h2, h3, _⟩ := retryLoop_success_fields client
    (m.getD s.assigned_model) (List.range MAX_RETRIES)
    { s with status := StepStatus.in_progress, started_at := Option.some w.clock }
    Option.none { w with clock := w.clock + 1 } h
  exact ⟨h1, h3, h2⟩

/-- On failure, `execute_step` leaves the step FAILED with an error
message, `started_at` stamped at entry, and `completed_at` and
`output` untouched. -/
theorem executeStep_fail_fields (client : LLMClient) (s : ExecutionStep)
    (m : Option String) (w : World)
    (h : (executeStep client s m w).2.2.success = false) :
    (executeStep client s m w).1.status = StepStatus.failed ∧
    (executeStep client s m w).1.started_at = Option.some w.clock ∧
    (executeStep client s m w).1.completed_at = s.completed_at ∧
    (executeStep client s m w).1.output = s.output ∧
    (∃ m', (executeStep client s m w).1.error = Option.some m') := by
  obtain ⟨h1, h2, h3, h4, h5⟩ := retryLoop_fail_fields client
    (m.getD s.assigned_model) (List.range MAX_RETRIES)
    { s with status := StepStatus.in_progress, started_at := Option.some w.clock }
    Option.none { w with clock := w.clock + 1 } h
  exact ⟨h1, h3, h2, h4, h5⟩

/-- `execute_step` succeeds iff one of the `MAX_RETRIES` calls it may
make returns a truthy dict, all earlier ones being transient
failures. -/
theorem executeStep_success_iff (client : LLMClient) (s : ExecutionStep)
    (m : Option String) (w : World) :
    (executeStep client s m w).2.2.success = true ↔
      ∃ i, i < MAX_RETRIES ∧ respTruthyAt client (w.calls + i) ∧
        ∀ j < i, transientAt client (w.calls + j) := by
  have := retryLoop_success_iff client (m.getD s.assigned_model)
    (List.range MAX_RETRIES)
    { s with status := StepStatus.in_progress, started_at := Option.some w.clock }
    Option.none { w with clock := w.clock + 1 }
  simpa [List.length_range] using this

/-- Only PENDING steps are ever returned by the scheduler. -/
theorem mem_getExecutableSteps_pending (q : Plan) (x : ExecutionStep)
    (hx : x ∈ getExecutableSteps q) : x.status = StepStatus.pending := by
  unfold getExecutableSteps at hx
  simp only [List.mem_filter, decide_eq_true_eq] at hx
  exact hx.1.2

/-- Folding the literal retry-failure message. -/
theorem failMsg_eq (x : String) :
    "Failed after " ++ toString MAX_RETRIES ++ " attempts: " ++ x =
      "Failed after 3 attempts: " ++ x := rfl

/-- C4 -- for a step whose LLM call raises on every attempt,
`execute_step` invokes the client exactly 3 times, sleeps 1s and then
2s between attempts, marks the step FAILED with error text
`"Failed after 3 attempts: <last failure>"`, reports failure, and no
FAILED step is ever offered again by the scheduler (only PENDING steps
are executable), so no further attempts happen across separate
`execute_step` invocations of the plan loop. -/
theorem executeStep_all_raise (client : LLMClient) (e : Nat → String)
    (s : ExecutionStep) (m : Option String) (w : World)
    (h : ∀ n, client n = Except.error (e n)) :
    (executeStep client s m w).2.1.calls = w.calls + 3 ∧
    (executeStep client s m w).2.1.sleeps = w.sleeps ++ [1, 2] ∧
    (executeStep client s m w).1.status = StepStatus.failed ∧
    (executeStep client s m w).1.error =
      Option.some ("Failed after 3 attempts: " ++ e (w.calls + 2)) ∧
    (executeStep client s m w).2.2.success = false ∧
    (∀ q : Plan, ∀ x ∈ getExecutableSteps q, x.status = StepStatus.pending) := by
  have hrange : List.range MAX_RETRIES = [0, 1, 2] := rfl
  simp only [executeStep, executeWithRetries, markStepStarted, hrange,
    executeRetryLoop, callModel, h, markStepFailed, pyStrOfOptStr]
  norm_num [retryDelay, RETRY_DELAY_BASE, MAX_RETRIES]
  refine ⟨rfl, ?_⟩
  exact fun q x hx => mem_getExecutableSteps_pending q x hx

/-- C4 witness: the always-raising client at a concrete step. -/
theorem executeStep_all_raise_witness :
    (executeStep raiseClient stepA Option.none {}).2.1.calls = 3 ∧
    (executeStep raiseClient stepA Option.none {}).2.1.sleeps = [1, 2] ∧
    (executeStep raiseClient stepA Option.none {}).1.status = StepStatus.failed ∧
    (executeStep raiseClient stepA Option.none {}).1.error =
      Option.some "Failed after 3 attempts: boom" := by
  have h := executeStep_all_raise raiseClient (fun _ => "boom") stepA
    Option.none {} (fun _ => rfl)
  exact ⟨h.1, h.2.1, h.2.2.1, h.2.2.2.1⟩

/-- C5 -- when graph validation fails, `execute_plan` surfaces the
raised error to the caller before any state mutation: the plan object
is returned exactly as it was (status untouched, no step changed) and
the world is untouched. -/
theorem executePlan_validation_failure (client : LLMClient) (p : Plan)
    (w : World) (mx : Nat) (e : String)
    (h : validateExecutionGraph p.execution_graph = Except.error e) :
    executePlan client p w mx = (p, w, Except.error e) := by
  unfold executePlan
  rw [h]

/-- C5 witness: a cyclic two-step plan. -/
theorem executePlan_validation_failure_witness :
    validateExecutionGraph planCyclic.execution_graph =
      Except.error (cycleErrMsg 1) ∧
    executePlan okClientX planCyclic {} 100 =
      (planCyclic, {}, Except.error (cycleErrMsg 1)) := by
  have hv : validateExecutionGraph planCyclic.execution_graph =
      Except.error (cycleErrMsg 1) := by
    simp [planCyclic, validateExecutionGraph, checkDeps, checkStepDeps,
      dfsAll, visitF, visitListF, depsOf, List.dedup]
  exact ⟨hv, executePlan_validation_failure okClientX planCyclic {} 100
    (cycleErrMsg 1) hv⟩

/-- C8 counterexample: the claim says a response with empty/falsy
*content* is a transient failure and that a step completes only on
non-empty content; but a truthy dict whose content is `""` completes
the step at the first attempt, storing the empty output. -/
theorem executeStep_empty_content_completes :
    (executeStep emptyContentClient stepA Option.none {}).1.status =
      StepStatus.completed ∧
    (executeStep emptyContentClient stepA Option.none {}).1.output =
      Option.some (PyVal.str "") ∧
    (executeStep emptyContentClient stepA Option.none {}).2.1.calls = 1 := by
  refine ⟨?_, ?_, ?_⟩ <;> decide

/-- C8 (amended) -- within one `execute_step`, a transient failure is a
raised call or a *falsy response dict*, and both are retried; the step
is marked COMPLETED, storing the response's `content` (which may be
empty), exactly at the first truthy response dict. -/
theorem executeStep_retry_policy (client : LLMClient) (s : ExecutionStep)
    (m : Option String) (w : World) :
    ((executeStep client s m w).2.2.success = true ↔
      ∃ i, i < MAX_RETRIES ∧ respTruthyAt client (w.calls + i) ∧
        ∀ j < i, transientAt client (w.calls + j)) ∧
    (∀ i d, i < MAX_RETRIES → client (w.calls + i) = Except.ok d →
      d.truthy = true → (∀ j < i, transientAt client (w.calls + j)) →
      (executeStep client s m w).1.status = StepStatus.completed ∧
      (executeStep client s m w).1.output = Option.some (d.get "content") ∧
      (executeStep client s m w).2.1.calls = w.calls + i + 1) := by
  constructor
  · exact executeStep_success_iff client s m w
  · intro i d hi hd htd hall
    have hres := retryLoop_first_truthy client (m.getD s.assigned_model)
      (List.range MAX_RETRIES)
      { s with status := StepStatus.in_progress, started_at := Option.some w.clock }
      Option.none { w with clock := w.clock + 1 } i d
      (by simpa [List.length_range] using hi) hd htd hall
    refine ⟨?_, hres.1, hres.2.1⟩
    exact (executeStep_success_fields client s m w hres.2.2).1

/-- C8 witness: a first-call truthy response completes the step with
its content. -/
theorem executeStep_retry_policy_witness :
    (executeStep abcClient stepA Option.none {}).1.status =
      StepStatus.completed ∧
    (executeStep abcClient stepA Option.none {}).1.output =
      Option.some (PyVal.str "a") ∧
    (executeStep abcClient stepA Option.none {}).2.1.calls = 1 := by
  have h := (executeStep_retry_policy abcClient stepA Option.none {}).2 0
    [("content", PyVal.str "a")] (by decide) rfl (by decide)
    (fun j hj => absurd hj (Nat.not_lt_zero j))
  exact ⟨h.1, h.2.1, h.2.2⟩

/-- C9 counterexample: a step that leaves IN_PROGRESS by failure gets
no `completed_at` stamp, contradicting the claim that `completed_at`
is stamped on leaving IN_PROGRESS regardless of success or failure. -/
theorem executeStep_failure_no_completed_at :
    (executeStep raiseClient stepA Option.none {}).1.status =
      StepStatus.failed ∧
    (executeStep raiseClient stepA Option.none {}).1.completed_at =
      Option.none := by
  refine ⟨?_, ?_⟩ <;> decide

/-- C9 (amended) -- for a pending step with fresh timestamps,
`started_at` is stamped exactly once, with the clock at the moment the
step enters IN_PROGRESS; `completed_at` is stamped exactly once, one
tick later, when the step leaves IN_PROGRESS by success, and is *not*
stamped when it leaves by failure. -/
theorem executeStep_timestamps (client : LLMClient) (s : ExecutionStep)
    (m : Option String) (w : World)
    (hp : s.status = StepStatus.pending) (h1 : s.started_at = Option.none)
    (h2 : s.completed_at = Option.none) :
    (executeStep client s m w).1.started_at = Option.some w.clock ∧
    ((executeStep client s m w).2.2.success = true →
      (executeStep client s m w).1.status = StepStatus.completed ∧
      (executeStep client s m w).1.completed_at = Option.some (w.clock + 1)) ∧
    ((executeStep client s m w).2.2.success = false →
      (executeStep client s m w).1.status = StepStatus.failed ∧
      (executeStep client s m w).1.completed_at = Option.none) := by
  refine ⟨?_, ?_, ?_⟩
  · cases hs : (executeStep client s m w).2.2.success with
    | true => exact (executeStep_success_fields client s m w hs).2.1
    | false => exact (executeStep_fail_fields client s m w hs).2.1
  · intro hs
    obtain ⟨hc, _, hca⟩ := executeStep_success_fields client s m w hs
    exact ⟨hc, hca⟩
  · intro hs
    obtain ⟨hc, _, hca, _⟩ := executeStep_fail_fields client s m w hs
    exact ⟨hc, h2 ▸ hca⟩

/-- C9 witness: the amended timestamp discipline at a concrete
succeeding run and the hypotheses at a concrete step. -/
theorem executeStep_timestamps_witness :
    stepA.status = StepStatus.pending ∧
    (executeStep okClientX stepA Option.none {}).1.started_at =
      Option.some 0 ∧
    (executeStep okClientX stepA Option.none {}).1.completed_at =
      Option.some 1 := by
  have h := executeStep_timestamps okClientX stepA Option.none {}
    rfl rfl rfl
  exact ⟨rfl, h.1, (h.2.1 (by decide)).2⟩

/-! ### Lemmas about the plan execution loop -/

/-- The retry loop touches only `calls` and `sleeps` of the world: the
`results` and `log` traces are unchanged. -/
theorem retryLoop_world_inv (client : LLMClient) (aM : String) :
    ∀ (l : List Nat) (s : ExecutionStep) (le : Option String) (w : World),
      (executeRetryLoop client aM s le w l).2.1.results = w.results ∧
      (executeRetryLoop client aM s le w l).2.1.log = w.log := by
  intro l
  induction l with
  | nil =>
    intro s le w
    rw [executeRetryLoop]
    exact ⟨rfl, rfl⟩
  | cons a rest ih =>
    intro s le w
    rw [executeRetryLoop]
    simp only [callModel]
    cases hc : client w.calls with
    | ok response =>
      simp only
      by_cases ht : response.truthy
      · simp [ht, markStepCompleted]
      · simp only [ht, Bool.false_eq_true, if_false]
        exact ih s _ _
    | error exc =>
      simp only
      by_cases ha : a < MAX_RETRIES - 1
      · simp only [ha, if_true]
        exact ih s _ _
      · simp only [ha, if_false]
        exact ih s _ _

/-- `execute_step` leaves the world's `results` and `log` traces
unchanged. -/
theorem executeStep_world_inv (client : LLMClient) (s : ExecutionStep)
    (m : Option String) (w : World) :
    (executeStep client s m w).2.1.results = w.results ∧
    (executeStep client s m w).2.1.log = w.log :=
  retryLoop_world_inv client (m.getD s.assigned_model) (List.range MAX_RETRIES)
    { s with status := StepStatus.in_progress, started_at := Option.some w.clock }
    Option.none { w with clock := w.clock + 1 }

/-- Membership in the scheduler's output, unfolded. -/
theorem mem_getExecutableSteps_iff (q : Plan) (x : ExecutionStep) :
    x ∈ getExecutableSteps q ↔
      x ∈ q.execution_graph ∧ x.status = StepStatus.pending ∧
        ∀ dep ∈ x.dependencies, ∃ c ∈ q.execution_graph,
          c.step_id = dep ∧ c.status = StepStatus.completed := by
  unfold getExecutableSteps
  simp only [List.mem_filter, List.all_eq_true, List.contains, List.elem_iff,
    decide_eq_true_eq, List.mem_map]
  constructor
  · rintro ⟨⟨hmem, hpend⟩, hall⟩
    refine ⟨hmem, hpend, fun dep hdep => ?_⟩
    obtain ⟨c, ⟨hc, hcc⟩, hid⟩ := hall dep hdep
    exact ⟨c, hc, hid, hcc⟩
  · rintro ⟨hmem, hpend, hall⟩
    refine ⟨⟨hmem, hpend⟩, fun dep hdep => ?_⟩
    obtain ⟨c, hc, hid, hcc⟩ := hall dep hdep
    exact ⟨c, ⟨hc, hcc⟩, hid⟩

/-- The scheduler returns at most as many steps as the graph has. -/
theorem getExecutableSteps_length_le (q : Plan) :
    (getExecutableSteps q).length ≤ q.execution_graph.length := by
  unfold getExecutableSteps
  exact Nat.le_trans (List.length_filter_le _ _)
    (List.length_filter_le _ _)

/-- Writing a step back leaves the graph's length unchanged. -/
theorem updateStep_length (g : List ExecutionStep) (s : ExecutionStep) :
    (updateStep g s).length = g.length := List.length_map g _

/-- Writing a step back leaves the graph's id list unchanged. -/
theorem updateStep_map_id (g : List ExecutionStep) (s : ExecutionStep) :
    (updateStep g s).map (fun t => t.step_id) = g.map (fun t => t.step_id) := by
  unfold updateStep
  rw [List.map_map]
  apply List.map_congr_left
  intro t _
  by_cases h : t.step_id = s.step_id
  · simp [h]
  · simp [h]

/-- An entry whose id differs from the written step's id survives the
write-back unchanged. -/
theorem updateStep_mem_of_ne (g : List ExecutionStep) (s t : ExecutionStep)
    (ht : t ∈ g) (hne : t.step_id ≠ s.step_id) : t ∈ updateStep g s := by
  unfold updateStep
  exact List.mem_map.mpr ⟨t, ht, by simp [hne]⟩

/-- The step counter only grows across a batch run. -/
theorem runBatch_cnt_ge (client : LLMClient) :
    ∀ (l : List ExecutionStep) (p : Plan) (w : World) (c : Nat),
      c ≤ (runBatch client l p w c).2.2.1 := by
  intro l
  induction l with
  | nil =>
    intro p w c
    rw [runBatch]
  | cons x xs ih =>
    intro p w c
    rw [runBatch]
    simp only
    split
    · exact Nat.le_trans (Nat.le_succ c) (ih _ _ _)
    · exact Nat.le_succ c

/-- The step counter grows by at most the batch size. -/
theorem runBatch_cnt_le (client : LLMClient) :
    ∀ (l : List ExecutionStep) (p : Plan) (w : World) (c : Nat),
      (runBatch client l p w c).2.2.1 ≤ c + l.length := by
  intro l
  induction l with
  | nil =>
    intro p w c
    rw [runBatch]
    simp
  | cons x xs ih =>
    intro p w c
    rw [runBatch]
    simp only [List.length_cons]
    rcases hr : executeStep client x Option.none
      { w with log := w.log ++ [x.step_id] } with ⟨s', w', res⟩
    simp only
    split
    · have h := ih { p with execution_graph := updateStep p.execution_graph s' }
        { w' with results := w'.results ++ [res.success] } (c + 1)
      omega
    · show c + 1 ≤ c + (xs.length + 1)
      omega

/-- The executed-step log grows in lockstep with the step counter. -/
theorem runBatch_log_len (client : LLMClient) :
    ∀ (l : List ExecutionStep) (p : Plan) (w : World) (c : Nat),
      (runBatch client l p w c).2.1.log.length + c =
        w.log.length + (runBatch client l p w c).2.2.1 := by
  intro l
  induction l with
  | nil =>
    intro p w c
    rw [runBatch]
  | cons x xs ih =>
    intro p w c
    rw [runBatch]
    simp only
    have hres : (executeStep client x Option.none
        { w with log := w.log ++ [x.step_id] }).2.1.log =
        w.log ++ [x.step_id] :=
      (executeStep_world_inv client x Option.none
        { w with log := w.log ++ [x.step_id] }).2
    rcases hr : executeStep client x Option.none
      { w with log := w.log ++ [x.step_id] } with ⟨s', w', res⟩
    rw [hr] at hres
    simp only at hres ⊢
    split
    · have h3 := ih { p with execution_graph := updateStep p.execution_graph s' }
        { w' with results := w'.results ++ [res.success] } (c + 1)
      simp only at h3 ⊢
      rw [hres] at h3 ⊢
      simp only [List.length_append, List.length_singleton] at h3 ⊢
      omega
    · simp only
      rw [hres]
      simp only [List.length_append, List.length_singleton]
      omega

/-- A batch run never changes the graph's length. -/
theorem runBatch_graph_len (client : LLMClient) :
    ∀ (l : List ExecutionStep) (p : Plan) (w : World) (c : Nat),
      (runBatch client l p w c).1.execution_graph.length =
        p.execution_graph.length := by
  intro l
  induction l with
  | nil =>
    intro p w c
    rw [runBatch]
  | cons x xs ih =>
    intro p w c
    rw [runBatch]
    simp only
    rcases hr : executeStep client x Option.none
      { w with log := w.log ++ [x.step_id] } with ⟨s', w', res⟩
    simp only
    split
    · have h := ih { p with execution_graph := updateStep p.execution_graph s' }
        { w' with results := w'.results ++ [res.success] } (c + 1)
      simp only at h
      rw [h]
      exact updateStep_length _ _
    · exact updateStep_length _ _

/-- A nonempty batch strictly increases the step counter. -/
theorem runBatch_cnt_lt (client : LLMClient) (l : List ExecutionStep)
    (p : Plan) (w : World) (c : Nat) (hl : l.isEmpty = false) :
    c < (runBatch client l p w c).2.2.1 := by
  cases l with
  | nil => simp at hl
  | cons x xs =>
    rw [runBatch]
    simp only
    split
    · exact Nat.lt_of_lt_of_le (Nat.lt_succ_self c) (runBatch_cnt_ge client xs _ _ _)
    · exact Nat.lt_succ_self c

/-- If a batch run returns early, it has set the plan's status to
FAILED. -/
theorem runBatch_early_failed (client : LLMClient) :
    ∀ (l : List ExecutionStep) (p : Plan) (w : World) (c : Nat),
      (runBatch client l p w c).2.2.2 = true →
      (runBatch client l p w c).1.status = PlanStatus.failed := by
  intro l
  induction l with
  | nil =>
    intro p w c h
    rw [runBatch] at h
    simp at h
  | cons x xs ih =>
    intro p w c h
    rw [runBatch] at h ⊢
    simp only at h ⊢
    by_cases hsucc : (executeStep client x Option.none
        { w with log := w.log ++ [x.step_id] }).2.2.success = true
    · rw [if_pos hsucc] at h ⊢
      exact ih _ _ _ h
    · rw [if_neg hsucc] at h ⊢

/-- The results trace of a batch run: the appended flags are all `true`
except, exactly when the run returned early, a final `false`. -/
theorem runBatch_results (client : LLMClient) :
    ∀ (l : List ExecutionStep) (p : Plan) (w : World) (c : Nat),
      ∃ flags,
        (runBatch client l p w c).2.1.results = w.results ++ flags ∧
        ((runBatch client l p w c).2.2.2 = true →
          flags.getLast? = Option.some false ∧
          flags.dropLast.all (fun b => b = true) = true) ∧
        ((runBatch client l p w c).2.2.2 = false →
          flags.all (fun b => b = true) = true) := by
  intro l
  induction l with
  | nil =>
    intro p w c
    rw [runBatch]
    exact ⟨[], by simp, by simp, by simp⟩
  | cons x xs ih =>
    intro p w c
    rw [runBatch]
    simp only
    rcases hr : executeStep client x Option.none
      { w with log := w.log ++ [x.step_id] } with ⟨s', w', res⟩
    have hres : w'.results = w.results := by
      have h := (executeStep_world_inv client x Option.none
        { w with log := w.log ++ [x.step_id] }).1
      rw [hr] at h
      exact h
    simp only
    by_cases hsucc : res.success = true
    · rw [if_pos hsucc]
      obtain ⟨flags', h1, h2, h3⟩ := ih
        { p with execution_graph := updateStep p.execution_graph s' }
        { w' with results := w'.results ++ [res.success] } (c + 1)
      refine ⟨true :: flags', ?_, ?_, ?_⟩
      · rw [h1]
        simp only [hres, hsucc]
        simp [List.append_assoc]
      · intro hearly
        obtain ⟨hl, hd⟩ := h2 hearly
        cases flags' with
        | nil => simp at hl
        | cons b bs =>
          refine ⟨by simpa using hl, ?_⟩
          simpa using hd
      · intro hlate
        have h := h3 hlate
        simpa using h
    · rw [if_neg hsucc]
      have hf : res.success = false := by
        cases hres2 : res.success
        · rfl
        · exact absurd hres2 hsucc
      refine ⟨[res.success], ?_, ?_, ?_⟩
      · simp [hres]
      · intro _
        simp [hf]
      · intro hcontra
        simp at hcontra

/-- In a stuck configuration, no executable step carries the id of the
stuck pending step or of its skipped dependency. -/
theorem stuck_not_executable (p : Plan) (sid d : Int)
    (hp : StuckPair p sid d) :
    ∀ x ∈ getExecutableSteps p, x.step_id ≠ sid ∧ x.step_id ≠ d := by
  obtain ⟨hnd, ⟨t, htm, htid, hts⟩, ⟨s0, hsm, hsid0, hss, hdep⟩⟩ := hp
  intro x hx
  obtain ⟨hxm, hxp, hall⟩ := (mem_getExecutableSteps_iff p x).mp hx
  constructor
  · intro hxs
    have hx0 : x = s0 :=
      List.inj_on_of_nodup_map hnd hxm hsm (by rw [hxs, hsid0])
    obtain ⟨cstep, hcm, hcid, hcc⟩ := hall d (by rw [hx0]; exact hdep)
    have hct : cstep = t :=
      List.inj_on_of_nodup_map hnd hcm htm (by rw [hcid, htid])
    rw [hct, hts] at hcc
    cases hcc
  · intro hxd
    have hxt : x = t :=
      List.inj_on_of_nodup_map hnd hxm htm (by rw [hxd, htid])
    rw [hxt, hts] at hxp
    cases hxp

/-- A batch whose steps all avoid the two critical ids preserves a
stuck configuration. -/
theorem runBatch_stuck (client : LLMClient) (sid d : Int) :
    ∀ (l : List ExecutionStep) (p : Plan) (w : World) (c : Nat),
      StuckPair p sid d → (∀ x ∈ l, x.step_id ≠ sid ∧ x.step_id ≠ d) →
      StuckPair (runBatch client l p w c).1 sid d := by
  intro l
  induction l with
  | nil =>
    intro p w c hp _
    rw [runBatch]
    exact hp
  | cons x xs ih =>
    intro p w c hp hl
    rw [runBatch]
    simp only
    rcases hr : executeStep client x Option.none
      { w with log := w.log ++ [x.step_id] } with ⟨s', w', res⟩
    have hsid : s'.step_id = x.step_id := by
      have h := executeStep_step_id client x Option.none
        { w with log := w.log ++ [x.step_id] }
      rw [hr] at h
      exact h
    simp only
    obtain ⟨hxs, hxd⟩ := hl x (List.mem_cons_self _ _)
    have hp' : StuckPair
        { p with execution_graph := updateStep p.execution_graph s' } sid d := by
      obtain ⟨hnd, ⟨t, htm, htid, hts⟩, ⟨s0, hsm, hsid0, hss, hdep⟩⟩ := hp
      refine ⟨?_, ⟨t, ?_, htid, hts⟩, ⟨s0, ?_, hsid0, hss, hdep⟩⟩
      · show ((updateStep p.execution_graph s').map (fun u => u.step_id)).Nodup
        rw [updateStep_map_id]
        exact hnd
      · exact updateStep_mem_of_ne _ _ _ htm
          (by rw [htid, hsid]; exact fun h => hxd h.symm)
      · exact updateStep_mem_of_ne _ _ _ hsm
          (by rw [hsid0, hsid]; exact fun h => hxs h.symm)
    by_cases hsucc : res.success = true
    · rw [if_pos hsucc]
      exact ih _ _ (c + 1) hp' (fun y hy => hl y (List.mem_cons_of_mem _ hy))
    · rw [if_neg hsucc]
      exact hp'

/-- The execution loop preserves a stuck configuration: the skipped
dependency never completes, so the stuck pending step is never
scheduled and never changes. -/
theorem execLoop_stuck (client : LLMClient) (sid d : Int) (mx : Nat) :
    ∀ (n : Nat) (p : Plan) (w : World) (c : Nat), mx - c ≤ n →
      StuckPair p sid d → StuckPair (execLoop client mx p w c).1 sid d := by
  intro n
  induction n with
  | zero =>
    intro p w c hn hp
    rw [execLoop]
    rw [dif_neg (by omega)]
    exact hp
  | succ n ih =>
    intro p w c hn hp
    rw [execLoop]
    by_cases hc : c < mx
    · rw [dif_pos hc]
      by_cases hb : (getExecutableSteps p).isEmpty
      · rw [dif_pos hb]
        exact hp
      · rw [dif_neg hb]
        have hbatch := stuck_not_executable p sid d hp
        have hp2 := runBatch_stuck client sid d (getExecutableSteps p) p w c hp hbatch
        by_cases he : (runBatch client (getExecutableSteps p) p w c).2.2.2 = true
        · rw [if_pos he]
          exact hp2
        · rw [if_neg he]
          by_cases hb2 : (getExecutableSteps
              (runBatch client (getExecutableSteps p) p w c).1).isEmpty
          · rw [if_pos hb2]
            exact hp2
          · rw [if_neg hb2]
            refine ih _ _ _ ?_ hp2
            have := runBatch_cnt_lt client (getExecutableSteps p) p w c
              (by simpa using hb)
            omega
    · rw [dif_neg hc]
      exact hp

/-- If the execution loop returned early, the returned plan's status is
FAILED. -/
theorem execLoop_early_failed (client : LLMClient) (mx : Nat) :
    ∀ (n : Nat) (p : Plan) (w : World) (c : Nat), mx - c ≤ n →
      (execLoop client mx p w c).2.2.2 = true →
      (execLoop client mx p w c).1.status = PlanStatus.failed := by
  intro n
  induction n with
  | zero =>
    intro p w c hn he
    rw [execLoop] at he
    rw [dif_neg (by omega)] at he
    cases he
  | succ n ih =>
    intro p w c hn he
    rw [execLoop] at he ⊢
    by_cases hc : c < mx
    · rw [dif_pos hc] at he ⊢
      by_cases hb : (getExecutableSteps p).isEmpty
      · rw [dif_pos hb] at he
        cases he
      · rw [dif_neg hb] at he ⊢
        by_cases hef : (runBatch client (getExecutableSteps p) p w c).2.2.2 = true
        · rw [if_pos hef] at he ⊢
          exact runBatch_early_failed client (getExecutableSteps p) p w c hef
        · rw [if_neg hef] at he ⊢
          by_cases hb2 : (getExecutableSteps
              (runBatch client (getExecutableSteps p) p w c).1).isEmpty
          · rw [if_pos hb2] at he
            cases he
          · rw [if_neg hb2] at he ⊢
            refine ih _ _ _ ?_ he
            have := runBatch_cnt_lt client (getExecutableSteps p) p w c
              (by simpa using hb)
            omega
    · rw [dif_neg hc] at he
      cases he

/-- Bookkeeping of the execution loop: the counter only grows, the log
grows in lockstep with it, the graph keeps its length, and the final
counter either never moved or is bounded by `max_steps - 1` plus one
full batch (of at most the graph's size). -/
theorem execLoop_count (client : LLMClient) (mx : Nat) :
    ∀ (n : Nat) (p : Plan) (w : World) (c : Nat), mx - c ≤ n →
      c ≤ (execLoop client mx p w c).2.2.1 ∧
      (execLoop client mx p w c).2.1.log.length + c =
        w.log.length + (execLoop client mx p w c).2.2.1 ∧
      (execLoop client mx p w c).1.execution_graph.length =
        p.execution_graph.length ∧
      ((execLoop client mx p w c).2.2.1 = c ∨
        (execLoop client mx p w c).2.2.1 ≤
          (mx - 1) + p.execution_graph.length) := by
  intro n
  induction n with
  | zero =>
    intro p w c hn
    rw [execLoop]
    rw [dif_neg (by omega)]
    exact ⟨Nat.le_refl c, by simp, rfl, Or.inl rfl⟩
  | succ n ih =>
    intro p w c hn
    rw [execLoop]
    by_cases hc : c < mx
    · rw [dif_pos hc]
      by_cases hb : (getExecutableSteps p).isEmpty
      · rw [dif_pos hb]
        exact ⟨Nat.le_refl c, by simp, rfl, Or.inl rfl⟩
      · rw [dif_neg hb]
        have h1 := runBatch_cnt_ge client (getExecutableSteps p) p w c
        have h2 := runBatch_cnt_le client (getExecutableSteps p) p w c
        have h3 := runBatch_log_len client (getExecutableSteps p) p w c
        have h4 := runBatch_graph_len client (getExecutableSteps p) p w c
        have h5 := getExecutableSteps_length_le p
        have hcnt1 : (runBatch client (getExecutableSteps p) p w c).2.2.1 ≤
            (mx - 1) + p.execution_graph.length := by omega
        by_cases he : (runBatch client (getExecutableSteps p) p w c).2.2.2 = true
        · rw [if_pos he]
          exact ⟨h1, h3, h4, Or.inr hcnt1⟩
        · rw [if_neg he]
          by_cases hb2 : (getExecutableSteps
              (runBatch client (getExecutableSteps p) p w c).1).isEmpty
          · rw [if_pos hb2]
            exact ⟨h1, h3, h4, Or.inr hcnt1⟩
          · rw [if_neg hb2]
            have hlt := runBatch_cnt_lt client (getExecutableSteps p) p w c
              (by simpa using hb)
            obtain ⟨g1, g2, g3, g4⟩ := ih
              (runBatch client (getExecutableSteps p) p w c).1
              (runBatch client (getExecutableSteps p) p w c).2.1
              (runBatch client (getExecutableSteps p) p w c).2.2.1
              (by omega)
            refine ⟨by omega, by omega, by rw [g3]; exact h4, ?_⟩
            rw [h4] at g4
            rcases g4 with g4 | g4
            · exact Or.inr (by omega)
            · exact Or.inr g4
    · rw [dif_neg hc]
      exact ⟨Nat.le_refl c, by simp, rfl, Or.inl rfl⟩

/-- The results trace of the whole loop: the appended flags are all
`true` except, exactly when the loop returned early, a final
`false`. -/
theorem execLoop_results (client : LLMClient) (mx : Nat) :
    ∀ (n : Nat) (p : Plan) (w : World) (c : Nat), mx - c ≤ n →
      ∃ flags,
        (execLoop client mx p w c).2.1.results = w.results ++ flags ∧
        ((execLoop client mx p w c).2.2.2 = true →
          flags.getLast? = Option.some false ∧
          flags.dropLast.all (fun b => b = true) = true) ∧
        ((execLoop client mx p w c).2.2.2 = false →
          flags.all (fun b => b = true) = true) := by
  intro n
  induction n with
  | zero =>
    intro p w c hn
    rw [execLoop]
    rw [dif_neg (by omega)]
    exact ⟨[], by simp, by simp, by simp⟩
  | succ n ih =>
    intro p w c hn
    rw [execLoop]
    by_cases hc : c < mx
    · rw [dif_pos hc]
      by_cases hb : (getExecutableSteps p).isEmpty
      · rw [dif_pos hb]
        exact ⟨[], by simp, by simp, by simp⟩
      · rw [dif_neg hb]
        obtain ⟨f₁, hf1, hf2, hf3⟩ :=
          runBatch_results client (getExecutableSteps p) p w c
        by_cases he : (runBatch client (getExecutableSteps p) p w c).2.2.2 = true
        · rw [if_pos he]
          exact ⟨f₁, hf1, fun _ => hf2 he, fun hcontra => by simp at hcontra⟩
        · rw [if_neg he]
          have hall₁ := hf3 (by
            cases hx : (runBatch client (getExecutableSteps p) p w c).2.2.2
            · rfl
            · exact absurd hx he)
          by_cases hb2 : (getExecutableSteps
              (runBatch client (getExecutableSteps p) p w c).1).isEmpty
          · rw [if_pos hb2]
            exact ⟨f₁, hf1, fun hcontra => by simp at hcontra, fun _ => hall₁⟩
          · rw [if_neg hb2]
            have hlt := runBatch_cnt_lt client (getExecutableSteps p) p w c
              (by simpa using hb)
            obtain ⟨f₂, hg1, hg2, hg3⟩ := ih
              (runBatch client (getExecutableSteps p) p w c).1
              (runBatch client (getExecutableSteps p) p w c).2.1
              (runBatch client (getExecutableSteps p) p w c).2.2.1
              (by omega)
            refine ⟨f₁ ++ f₂, ?_, ?_, ?_⟩
            · rw [hg1, hf1, List.append_assoc]
            · intro hearly
              obtain ⟨hl, hd⟩ := hg2 hearly
              have hf2ne : f₂ ≠ [] := by
                intro hnil
                rw [hnil] at hl
                simp at hl
              constructor
              · rw [List.getLast?_append]
                rw [hl]
                rfl
              · rw [List.dropLast_append_of_ne_nil f₁ hf2ne]
                rw [List.all_append]
                rw [hall₁, hd]
                rfl
            · intro hlate
              have h := hg3 hlate
              rw [List.all_append, hall₁, h]
              rfl
    · rw [dif_neg hc]
      exact ⟨[], by simp, by simp, by simp⟩

/-- Unfolding `_aggregate_outputs`'s fold into a filter-map. -/
theorem foldl_outputs :
    ∀ (l : List ExecutionStep) (acc : List (String × PyVal)),
      l.foldl (fun outputs s =>
        if truthyOutput s.output then
          outputs ++ [("step_" ++ toString s.step_id, s.output.getD PyVal.none)]
        else outputs) acc =
      acc ++ (l.filter (fun s => truthyOutput s.output)).map
        (fun s => ("step_" ++ toString s.step_id, s.output.getD PyVal.none)) := by
  intro l
  induction l with
  | nil =>
    intro acc
    simp
  | cons x xs ih =>
    intro acc
    rw [List.foldl_cons]
    by_cases hx : truthyOutput x.output = true
    · rw [if_pos hx, ih]
      simp [List.filter_cons, hx, List.append_assoc]
    · rw [if_neg hx, ih]
      simp [List.filter_cons, hx]

/-- `_aggregate_outputs` binds `"step_<id>"` to the output of exactly
the steps whose output is truthy, in graph order. -/
theorem aggregateOutputs_eq (q : Plan) :
    aggregateOutputs q =
      (q.execution_graph.filter (fun s => truthyOutput s.output)).map
        (fun s => ("step_" ++ toString s.step_id, s.output.getD PyVal.none)) := by
  unfold aggregateOutputs
  rw [foldl_outputs]
  simp

/-- C3 -- fail-fast: during `execute_plan`, a step execution that
reports failure is the last one performed (every earlier execution in
the run succeeded, nothing runs after it in that batch or any later
batch) and the plan's status is then FAILED; concretely, with step A
(no dependencies) always failing and step B depending on A, only A is
ever executed, B stays PENDING, and the plan ends FAILED. -/
theorem executePlan_fail_fast :
    (∀ (client : LLMClient) (p : Plan) (w : World) (mx : Nat),
      w.results = [] →
      (executePlan client p w mx).2.1.results.dropLast.all
        (fun b => b = true) = true ∧
      (false ∈ (executePlan client p w mx).2.1.results →
        (executePlan client p w mx).1.status = PlanStatus.failed ∧
        (executePlan client p w mx).2.1.results.getLast? =
          Option.some false)) ∧
    ((executePlan raiseClient planAB {} 100).1.status = PlanStatus.failed ∧
      (executePlan raiseClient planAB {} 100).1.execution_graph.map
        (fun s => (s.step_id, s.status)) =
        [(1, StepStatus.failed), (2, StepStatus.pending)] ∧
      (executePlan raiseClient planAB {} 100).2.1.log = [1]) := by
  constructor
  · intro client p w mx hw
    unfold executePlan
    cases hval : validateExecutionGraph p.execution_graph with
    | error e =>
      constructor
      · show w.results.dropLast.all (fun b => b = true) = true
        rw [hw]
        rfl
      · intro hfalse
        have hmem : false ∈ w.results := hfalse
        rw [hw] at hmem
        simp at hmem
    | ok u =>
      cases u
      obtain ⟨flags, hr1, hr2, hr3⟩ := execLoop_results client mx mx
        { p with status := PlanStatus.executing } w 0 (by omega)
      rw [hw] at hr1
      simp only [List.nil_append] at hr1
      by_cases he : (execLoop client mx
          { p with status := PlanStatus.executing } w 0).2.2.2 = true
      · rw [if_pos he]
        obtain ⟨hl, hd⟩ := hr2 he
        constructor
        · show (execLoop client mx { p with status := PlanStatus.executing }
            w 0).2.1.results.dropLast.all (fun b => b = true) = true
          rw [hr1]
          simpa using hd
        · intro _
          constructor
          · show (execLoop client mx { p with status := PlanStatus.executing }
              w 0).1.status = PlanStatus.failed
            exact execLoop_early_failed client mx mx _ w 0 (by omega) he
          · show (execLoop client mx { p with status := PlanStatus.executing }
              w 0).2.1.results.getLast? = Option.some false
            rw [hr1]
            exact hl
      · rw [if_neg he]
        have hall := hr3 (by
          cases hx : (execLoop client mx
              { p with status := PlanStatus.executing } w 0).2.2.2
          · rfl
          · exact absurd hx he)
        have hmem : ∀ b ∈ flags, b = true := by
          intro b hb
          have h := List.all_eq_true.mp hall b hb
          simpa using h
        have hdrop : flags.dropLast.all (fun b => b = true) = true := by
          apply List.all_eq_true.mpr
          intro b hb
          simp only [decide_eq_true_eq]
          exact hmem b (List.dropLast_subset flags hb)
        have hnofalse : false ∈ flags → False := by
          intro hf
          exact Bool.false_ne_true (hmem false hf)
        by_cases ha : ((execLoop client mx
            { p with status := PlanStatus.executing } w 0).1.execution_graph.all
            (fun s => decide (s.status = StepStatus.completed) ||
              decide (s.status = StepStatus.skipped))) = true
        · rw [if_pos ha]
          constructor
          · show (execLoop client mx { p with status := PlanStatus.executing }
              w 0).2.1.results.dropLast.all (fun b => b = true) = true
            rw [hr1]
            exact hdrop
          · intro hfalse
            exact absurd (hr1 ▸ hfalse) hnofalse
        · rw [if_neg ha]
          constructor
          · show (execLoop client mx { p with status := PlanStatus.executing }
              w 0).2.1.results.dropLast.all (fun b => b = true) = true
            rw [hr1]
            exact hdrop
          · intro hfalse
            exact absurd (hr1 ▸ hfalse) hnofalse
  · refine ⟨?_, ?_, ?_⟩ <;>
    simp [executePlan, execLoop, runBatch, executeStep, executeWithRetries,
      executeRetryLoop, markStepStarted, markStepCompleted, markStepFailed,
      callModel, getExecutableSteps, updateStep, validateExecutionGraph,
      checkDeps, checkStepDeps, dfsAll, visitF, visitListF, depsOf,
      aggregateOutputs, truthyOutput, PyVal.truthy, PyDict.truthy, PyDict.get,
      raiseClient, planAB, stepA, stepB, List.dedup, MAX_RETRIES, pyStrOfOptStr]

/-- C3 witness: the general fail-fast facts applied to the concrete
failing run. -/
theorem executePlan_fail_fast_witness :
    (executePlan raiseClient planAB {} 100).2.1.results.dropLast.all
      (fun b => b = true) = true ∧
    (false ∈ (executePlan raiseClient planAB {} 100).2.1.results →
      (executePlan raiseClient planAB {} 100).1.status = PlanStatus.failed ∧
      (executePlan raiseClient planAB {} 100).2.1.results.getLast? =
        Option.some false) :=
  executePlan_fail_fast.1 raiseClient planAB {} 100 rfl

/-- C6 counterexample: a plan whose only step completes with output
`""` ends COMPLETED, but `final_output` omits the completed step (the
code keeps only truthy outputs), so it is not the mapping binding
`"step_1"` to that step's output. -/
theorem executePlan_empty_output_omitted :
    (executePlan emptyContentClient planOne {} 100).1.status =
      PlanStatus.completed ∧
    (executePlan emptyContentClient planOne {} 100).1.execution_graph.map
      (fun s => (s.step_id, s.status, s.output)) =
      [(1, StepStatus.completed, Option.some (PyVal.str ""))] ∧
    (executePlan emptyContentClient planOne {} 100).1.final_output =
      Option.some [] := by
  refine ⟨?_, ?_, ?_⟩ <;>
  simp [executePlan, execLoop, runBatch, executeStep, executeWithRetries,
    executeRetryLoop, markStepStarted, markStepCompleted, markStepFailed,
    callModel, getExecutableSteps, updateStep, validateExecutionGraph,
    checkDeps, checkStepDeps, dfsAll, visitF, visitListF, depsOf,
    aggregateOutputs, truthyOutput, PyVal.truthy, PyDict.truthy, PyDict.get,
    emptyContentClient, planOne, stepA, List.dedup, MAX_RETRIES]

/-- C6 (amended) -- when `execute_plan` (on a valid graph) finishes
with status COMPLETED, `final_output` is the mapping binding
`"step_<step_id>"` to the step's output for exactly the steps whose
output is truthy (non-empty), in graph order; in particular, for steps
1, 2, 3 completing with outputs `"a"`, `"b"`, `"c"`, it equals
`{"step_1": "a", "step_2": "b", "step_3": "c"}`. -/
theorem executePlan_aggregation :
    (∀ (client : LLMClient) (p : Plan) (w : World) (mx : Nat),
      validateExecutionGraph p.execution_graph = Except.ok () →
      (executePlan client p w mx).1.status = PlanStatus.completed →
      (executePlan client p w mx).1.final_output = Option.some
        (((executePlan client p w mx).1.execution_graph.filter
          (fun s => truthyOutput s.output)).map
          (fun s => ("step_" ++ toString s.step_id,
            s.output.getD PyVal.none)))) ∧
    ((executePlan abcClient planABC {} 100).1.status = PlanStatus.completed ∧
      (executePlan abcClient planABC {} 100).1.final_output = Option.some
        [("step_1", PyVal.str "a"), ("step_2", PyVal.str "b"),
          ("step_3", PyVal.str "c")]) := by
  constructor
  · intro client p w mx hval hc
    unfold executePlan at hc ⊢
    rw [hval] at hc ⊢
    simp only at hc ⊢
    by_cases he : (execLoop client mx
        { p with status := PlanStatus.executing } w 0).2.2.2 = true
    · rw [if_pos he] at hc
      have hf := execLoop_early_failed client mx mx
        { p with status := PlanStatus.executing } w 0 (by omega) he
      have : PlanStatus.failed = PlanStatus.completed := hf.symm.trans hc
      cases this
    · rw [if_neg he] at hc ⊢
      by_cases ha : ((execLoop client mx
          { p with status := PlanStatus.executing } w 0).1.execution_graph.all
          (fun s => decide (s.status = StepStatus.completed) ||
            decide (s.status = StepStatus.skipped))) = true
      · rw [if_pos ha]
        show Option.some (aggregateOutputs
            (execLoop client mx { p with status := PlanStatus.executing }
              w 0).1) = _
        rw [aggregateOutputs_eq]
      · rw [if_neg ha] at hc
        cases hc
  · refine ⟨?_, ?_⟩ <;>
    · simp [executePlan, execLoop, runBatch, executeStep, executeWithRetries,
        executeRetryLoop, markStepStarted, markStepCompleted, markStepFailed,
        callModel, getExecutableSteps, updateStep, validateExecutionGraph,
        checkDeps, checkStepDeps, dfsAll, visitF, visitListF, depsOf,
        aggregateOutputs, truthyOutput, PyVal.truthy, PyDict.truthy,
        PyDict.get, abcClient, planABC, List.dedup, MAX_RETRIES]
      try rfl

/-- C6 witness: the aggregation law applied to the concrete
a-b-c run. -/
theorem executePlan_aggregation_witness :
    (executePlan abcClient planABC {} 100).1.final_output = Option.some
      (((executePlan abcClient planABC {} 100).1.execution_graph.filter
        (fun s => truthyOutput s.output)).map
        (fun s => ("step_" ++ toString s.step_id,
          s.output.getD PyVal.none))) := by
  refine executePlan_aggregation.1 abcClient planABC {} 100 ?_ ?_
  · simp [validateExecutionGraph, checkDeps, checkStepDeps, dfsAll, visitF,
      visitListF, depsOf, planABC, List.dedup]
    try decide
  · exact executePlan_aggregation.2.1

/-- C7 counterexample: with `max_steps = 1` and two independent ready
steps, the inner `for` loop finishes the whole batch, so 2 step
executions happen although `max_steps` is 1. -/
theorem executePlan_budget_overshoot :
    (executePlan okClientX planTwoIndep {} 1).2.1.log = [1, 2] ∧
    1 < (executePlan okClientX planTwoIndep {} 1).2.1.log.length := by
  have h : (executePlan okClientX planTwoIndep {} 1).2.1.log = [1, 2] := by
    simp [executePlan, execLoop, runBatch, executeStep, executeWithRetries,
      executeRetryLoop, markStepStarted, markStepCompleted, markStepFailed,
      callModel, getExecutableSteps, updateStep, validateExecutionGraph,
      checkDeps, checkStepDeps, dfsAll, visitF, visitListF, depsOf,
      aggregateOutputs, truthyOutput, PyVal.truthy, PyDict.truthy, PyDict.get,
      okClientX, planTwoIndep, List.dedup, MAX_RETRIES]
  exact ⟨h, by rw [h]; decide⟩

/-- C7 (amended) -- `execute_plan` always terminates (it is a total
function of this model), and the number of step executions in one
invocation is bounded by `max_steps - 1` plus one full ready batch,
hence by `max_steps - 1 + |execution_graph|`; the batch already in
flight when the budget check passes is not truncated, so the bound
`max_steps` itself can be exceeded by up to one batch. -/
theorem executePlan_step_budget (client : LLMClient) (p : Plan)
    (w : World) (mx : Nat) :
    (executePlan client p w mx).2.1.log.length ≤
      w.log.length + (mx - 1) + p.execution_graph.length := by
  unfold executePlan
  cases hval : validateExecutionGraph p.execution_graph with
  | error e =>
    show w.log.length ≤ w.log.length + (mx - 1) + p.execution_graph.length
    omega
  | ok u =>
    cases u
    obtain ⟨g1, g2, g3, g4⟩ := execLoop_count client mx mx
      { p with status := PlanStatus.executing } w 0 (by omega)
    have g4' : (execLoop client mx { p with status := PlanStatus.executing }
        w 0).2.2.1 = 0 ∨
        (execLoop client mx { p with status := PlanStatus.executing }
          w 0).2.2.1 ≤ (mx - 1) + p.execution_graph.length := g4
    by_cases he : (execLoop client mx
        { p with status := PlanStatus.executing } w 0).2.2.2 = true
    · rw [if_pos he]
      show (execLoop client mx { p with status := PlanStatus.executing }
        w 0).2.1.log.length ≤ _
      omega
    · rw [if_neg he]
      by_cases ha : ((execLoop client mx
          { p with status := PlanStatus.executing } w 0).1.execution_graph.all
          (fun s => decide (s.status = StepStatus.completed) ||
            decide (s.status = StepStatus.skipped))) = true
      · rw [if_pos ha]
        show (execLoop client mx { p with status := PlanStatus.executing }
          w 0).2.1.log.length ≤ _
        omega
      · rw [if_neg ha]
        show (execLoop client mx { p with status := PlanStatus.executing }
          w 0).2.1.log.length ≤ _
        omega

/-- C10 -- a PENDING step one of whose dependency ids refers to a
SKIPPED step is never returned by `get_executable_steps` (SKIPPED does
not count as COMPLETED for readiness), and `execute_plan` on such a
plan (with a valid graph) ends with status FAILED, even though the
final all-done check itself counts SKIPPED steps as done. -/
theorem executePlan_skipped_dep_fails (client : LLMClient) (p : Plan)
    (w : World) (mx : Nat) (sid d : Int)
    (hval : validateExecutionGraph p.execution_graph = Except.ok ())
    (ht : ∃ t ∈ p.execution_graph, t.step_id = d ∧
      t.status = StepStatus.skipped)
    (hs : ∃ s ∈ p.execution_graph, s.step_id = sid ∧
      s.status = StepStatus.pending ∧ d ∈ s.dependencies) :
    (∀ x ∈ getExecutableSteps p, x.step_id ≠ sid) ∧
    (executePlan client p w mx).1.status = PlanStatus.failed := by
  have hnd : (p.execution_graph.map (fun s => s.step_id)).Nodup :=
    ((validateExecutionGraph_ok_iff p.execution_graph).mp hval).1
  have hstuck : StuckPair p sid d := ⟨hnd, ht, hs⟩
  constructor
  · intro x hx
    exact (stuck_not_executable p sid d hstuck x hx).1
  · unfold executePlan
    rw [hval]
    simp only
    have hstuck1 : StuckPair { p with status := PlanStatus.executing } sid d :=
      hstuck
    have hres := execLoop_stuck client sid d mx mx
      { p with status := PlanStatus.executing } w 0 (by omega) hstuck1
    by_cases he : (execLoop client mx
        { p with status := PlanStatus.executing } w 0).2.2.2 = true
    · rw [if_pos he]
      exact execLoop_early_failed client mx mx _ w 0 (by omega) he
    · rw [if_neg he]
      obtain ⟨_, _, s0, hsm, _, hss, _⟩ := hres
      have hall : ((execLoop client mx
          { p with status := PlanStatus.executing } w 0).1.execution_graph.all
          (fun s => decide (s.status = StepStatus.completed) ||
            decide (s.status = StepStatus.skipped))) = false := by
        apply List.all_eq_false.mpr
        refine ⟨s0, hsm, ?_⟩
        rw [hss]
        decide
      rw [if_neg (by rw [hall]; exact Bool.false_ne_true)]

/-- C10 witness: step 1 SKIPPED, pending step 2 depending on it. -/
theorem executePlan_skipped_dep_fails_witness :
    (∀ x ∈ getExecutableSteps planSkipDep, x.step_id ≠ 2) ∧
    (executePlan okClientX planSkipDep {} 100).1.status =
      PlanStatus.failed := by
  refine executePlan_skipped_dep_fails okClientX planSkipDep {} 100 2 1
    ?_ ?_ ?_
  · simp [validateExecutionGraph, checkDeps, checkStepDeps, dfsAll, visitF,
      visitListF, depsOf, planSkipDep, stepB, List.dedup]
    try decide
  · exact ⟨{ step_id := 1, status := StepStatus.skipped },
      by simp [planSkipDep], rfl, rfl⟩
  · exact ⟨stepB, by simp [planSkipDep], rfl, rfl, by simp [stepB]⟩

